import Mathlib

/-!
Verification of the ldoc markup pipeline (src/ldoc.py).

The program is a single pipeline function `parse_ldoc(text, base_dir, vars_dict,
platform)` that rewrites a text buffer through a fixed sequence of regex-driven
stages and returns the rewritten buffer together with an extracted title.

We embed the buffer as `List Char` and each regex rewrite as an explicit scanner
that mirrors the semantics of the corresponding Python regex on that buffer:
re.sub and str.replace scan left to right, replace non-overlapping matches, and
never re-scan replacement text; re.search finds the leftmost match; re.findall
collects non-overlapping matches left to right.  Patterns anchored with ^...$
under re.M match whole lines and are embedded as per-line maps.  Lazy groups
(.*?) take the shortest extension that lets the rest of the pattern match,
which for our concrete patterns means: up to the first later occurrence of the
literal that follows the group.

The file system (for @include) is embedded as an association list from path to
contents; `os.path.exists` becomes a successful lookup.
-/

set_option autoImplicit false

namespace Ldoc

/-- Single-quote character, written via its code point so that string literals
in this file avoid quote characters. -/
def sq : Char := Char.ofNat 39

/-- Backtick character, written via its code point. -/
def bq : Char := Char.ofNat 96

/-- Python `\w` (ASCII range): letters, digits, underscore. -/
def isWordChar (c : Char) : Bool := c.isAlphanum || c = '_'

/-- Python whitespace as matched by `\s` / stripped by `str.strip()`
(ASCII range): space, tab, newline, carriage return, vertical tab, form feed. -/
def isPyWS (c : Char) : Bool :=
  c = ' ' || c = '\t' || c = '\n' || c = '\r' || c = Char.ofNat 11 || c = Char.ofNat 12

/-- Python `str.strip()`: drop leading and trailing whitespace. -/
def pyStrip (s : List Char) : List Char :=
  ((s.dropWhile isPyWS).reverse.dropWhile isPyWS).reverse

/-- Python `str.replace(pat, rep)`: replace every occurrence of `pat`,
scanning left to right, non-overlapping, not re-scanning `rep`.
(The program never calls it with an empty pattern; for an empty pattern this
embedding is the identity.) -/
def replaceAllAux (pat rep : List Char) : List Char → Nat → List Char
  | [], _ => []
  | _ :: cs, skip + 1 => replaceAllAux pat rep cs skip
  | c :: cs, 0 =>
    if pat ≠ [] ∧ pat.isPrefixOf (c :: cs) then
      rep ++ replaceAllAux pat rep cs (pat.length - 1)
    else
      c :: replaceAllAux pat rep cs 0

def replaceAll (pat rep t : List Char) : List Char := replaceAllAux pat rep t 0

/-- Split at the first occurrence of `pat`: `splitFirst pat t = some (a, b)`
means `t = a ++ pat ++ b` and no occurrence of `pat` starts inside `a`. -/
def splitFirst (pat : List Char) : List Char → Option (List Char × List Char)
  | [] => if pat = [] then some ([], []) else none
  | c :: cs =>
    if pat ≠ [] ∧ pat.isPrefixOf (c :: cs) then
      some ([], List.drop (pat.length - 1) cs)
    else
      match splitFirst pat cs with
      | some (a, b) => some (c :: a, b)
      | none => none

/-- `splitFirst`, additionally requiring that no newline occurs before the
occurrence (used for lazy groups under a regex without re.S, whose `.` does
not match a newline). -/
def splitFirstNoNL (pat : List Char) (t : List Char) : Option (List Char × List Char) :=
  match splitFirst pat t with
  | some (a, b) => if '\n' ∈ a then none else some (a, b)
  | none => none

end Ldoc

namespace Ldoc

theorem replaceAllAux_skip (pat rep : List Char) (t : List Char) (k : Nat) :
    replaceAllAux pat rep t k = replaceAllAux pat rep (t.drop k) 0 := by
  induction t generalizing k with
  | nil => simp [replaceAllAux]
  | cons c cs ih =>
    cases k with
    | zero => simp
    | succ k2 => rw [replaceAllAux, ih k2, List.drop_succ_cons]

theorem replaceAll_nil (pat rep : List Char) : replaceAll pat rep [] = [] := by
  simp [replaceAll, replaceAllAux]

theorem replaceAll_cons_neg (pat rep : List Char) (c : Char) (cs : List Char)
    (h : ¬ (pat ≠ [] ∧ pat.isPrefixOf (c :: cs))) :
    replaceAll pat rep (c :: cs) = c :: replaceAll pat rep cs := by
  unfold replaceAll
  rw [replaceAllAux, if_neg h]

theorem replaceAll_cons_pos (pat rep : List Char) (c : Char) (cs : List Char)
    (h : pat ≠ [] ∧ pat.isPrefixOf (c :: cs)) :
    replaceAll pat rep (c :: cs) =
      rep ++ replaceAll pat rep (List.drop (pat.length - 1) cs) := by
  unfold replaceAll
  rw [replaceAllAux, if_pos h, replaceAllAux_skip]

/-- A match step of `replaceAll` at the start of the buffer. -/
theorem replaceAll_append_left (pat rep b : List Char) (hpat : pat ≠ []) :
    replaceAll pat rep (pat ++ b) = rep ++ replaceAll pat rep b := by
  cases hp : pat with
  | nil => exact absurd hp hpat
  | cons p ps =>
    subst hp
    rw [List.cons_append, replaceAll_cons_pos]
    · congr 1
      congr 1
      simp only [List.length_cons, Nat.add_sub_cancel]
      rw [List.drop_left']
      simp
    · refine ⟨hpat, ?_⟩
      rw [← List.cons_append]
      exact List.isPrefixOf_iff_prefix.mpr (List.prefix_append _ _)

/-- `replaceAll` passes over a region in which no occurrence of the pattern
starts.  The side condition says: no nonempty suffix of `a`, continued with
`b`, begins with `pat`. -/
theorem replaceAll_append_of_no_occ (pat rep a b : List Char)
    (h : ∀ s, s <:+ a → s ≠ [] → ¬ pat <+: (s ++ b)) :
    replaceAll pat rep (a ++ b) = a ++ replaceAll pat rep b := by
  induction a with
  | nil => simp
  | cons c cs ih =>
    have h1 : ∀ s, s <:+ cs → s ≠ [] → ¬ pat <+: (s ++ b) := fun s hs hne =>
      h s (hs.trans (List.suffix_cons c cs)) hne
    rw [List.cons_append, replaceAll_cons_neg, ih h1, List.cons_append]
    rintro ⟨hne, hpre⟩
    exact h (c :: cs) List.suffix_rfl (by simp)
      (by simpa using List.isPrefixOf_iff_prefix.mp hpre)

/-- If the pattern occurs nowhere in `t`, `replaceAll` is the identity. -/
theorem replaceAll_of_not_infix (pat rep t : List Char) (h : ¬ pat <:+: t) :
    replaceAll pat rep t = t := by
  have hocc : ∀ s, s <:+ t → s ≠ [] → ¬ pat <+: (s ++ []) := by
    intro s hs hne hpre
    rw [List.append_nil] at hpre
    exact h (hpre.isInfix.trans hs.isInfix)
  have := replaceAll_append_of_no_occ pat rep t [] hocc
  simpa [replaceAll_nil] using this

/-- Occurrences of the pattern further right are untouched until reached:
full characterization on `a ++ pat ++ b` when no occurrence starts in `a`. -/
theorem replaceAll_single (pat rep a b : List Char) (hpat : pat ≠ [])
    (ha : ∀ s, s <:+ a → s ≠ [] → ¬ pat <+: (s ++ pat ++ b))
    (hb : ¬ pat <:+: b) :
    replaceAll pat rep (a ++ pat ++ b) = a ++ rep ++ b := by
  rw [List.append_assoc, replaceAll_append_of_no_occ pat rep a (pat ++ b)
      (by intro s hs hne; have := ha s hs hne; simpa [List.append_assoc] using this),
    replaceAll_append_left pat rep b hpat, replaceAll_of_not_infix pat rep b hb]
  simp [List.append_assoc]

/-- Split a buffer into its lines (maximal newline-free runs); the newline
separators are dropped.  `pyLines [] = [[]]`, matching the list of lines of an
empty Python string under this decomposition. -/
def pyLines : List Char → List (List Char)
  | [] => [[]]
  | c :: cs =>
    if c = '\n' then [] :: pyLines cs
    else
      match pyLines cs with
      | [] => [[c]]
      | l :: ls => (c :: l) :: ls

/-- Join lines back with newline separators; inverse of `pyLines`. -/
def joinNL : List (List Char) → List Char
  | [] => []
  | [l] => l
  | l :: ls => l ++ '\n' :: joinNL ls

/-- A per-line rewrite, the embedding of `re.sub` with a `^...$`-anchored
pattern under `re.M` whose matches are whole lines. -/
def mapLines (f : List Char → List Char) (t : List Char) : List Char :=
  joinNL ((pyLines t).map f)

theorem pyLines_ne_nil (t : List Char) : pyLines t ≠ [] := by
  cases t with
  | nil => simp [pyLines]
  | cons c cs =>
    by_cases hc : c = '\n'
    · simp [pyLines, hc]
    · simp only [pyLines, if_neg hc]
      cases pyLines cs <;> simp

theorem pyLines_cons_nl (cs : List Char) : pyLines ('\n' :: cs) = [] :: pyLines cs := by
  simp [pyLines]

theorem pyLines_cons_of_ne (c : Char) (cs : List Char) (hc : c ≠ '\n') :
    pyLines (c :: cs) = (c :: (pyLines cs).headI) :: (pyLines cs).tail := by
  simp only [pyLines, if_neg hc]
  rcases hl : pyLines cs with _ | ⟨l, ls⟩
  · exact absurd hl (pyLines_ne_nil cs)
  · simp

theorem pyLines_of_no_nl (t : List Char) (h : '\n' ∉ t) : pyLines t = [t] := by
  induction t with
  | nil => rfl
  | cons c cs ih =>
    have hc : c ≠ '\n' := fun hh => h (hh ▸ List.mem_cons_self c cs)
    rw [pyLines_cons_of_ne c cs hc, ih (fun hh => h (List.mem_cons_of_mem c hh))]
    simp

/-- Key splice law: a newline splits the line structure on both sides. -/
theorem pyLines_append_nl (a b : List Char) :
    pyLines (a ++ '\n' :: b) = pyLines a ++ pyLines b := by
  induction a with
  | nil => simp [pyLines_cons_nl, pyLines]
  | cons c cs ih =>
    by_cases hc : c = '\n'
    · subst hc
      rw [List.cons_append, pyLines_cons_nl, pyLines_cons_nl, ih, List.cons_append]
    · rw [List.cons_append, pyLines_cons_of_ne c _ hc, pyLines_cons_of_ne c cs hc, ih]
      have h1 := pyLines_ne_nil cs
      rcases hl : pyLines cs with _ | ⟨l, ls⟩
      · exact absurd hl h1
      · simp

theorem joinNL_cons (l : List Char) (ls : List (List Char)) (h : ls ≠ []) :
    joinNL (l :: ls) = l ++ '\n' :: joinNL ls := by
  cases ls with
  | nil => exact absurd rfl h
  | cons x xs => rfl

theorem joinNL_pyLines (t : List Char) : joinNL (pyLines t) = t := by
  induction t with
  | nil => rfl
  | cons c cs ih =>
    by_cases hc : c = '\n'
    · subst hc
      rw [pyLines_cons_nl, joinNL_cons [] (pyLines cs) (pyLines_ne_nil cs), ih]
      simp
    · rcases hl : pyLines cs with _ | ⟨l, ls⟩
      · exact absurd hl (pyLines_ne_nil cs)
      · rw [hl] at ih
        rw [pyLines_cons_of_ne c cs hc, hl]
        simp only [List.headI, List.tail]
        cases ls with
        | nil =>
          simp only [joinNL] at ih ⊢
          rw [ih]
        | cons y ys =>
          rw [joinNL_cons (c :: l) (y :: ys) (by simp), List.cons_append,
            ← joinNL_cons l (y :: ys) (by simp), ih]

/-- Joining a `bind` of per-line expansions: used to read off the line
structure after a whole-line replacement. -/
theorem pyLines_joinNL_bind (parts : List (List Char)) (h : parts ≠ []) :
    pyLines (joinNL parts) = parts.flatMap pyLines := by
  induction parts with
  | nil => exact absurd rfl h
  | cons p ps ih =>
    cases ps with
    | nil => simp [joinNL]
    | cons q qs =>
      rw [joinNL_cons p _ (by simp), pyLines_append_nl, ih (by simp)]
      simp

/-- A newline-free prefix of `t` is a prefix of the first line of `t`. -/
theorem prefix_headI_pyLines (p t : List Char) (hn : '\n' ∉ p) (hp : p <+: t) :
    p <+: (pyLines t).headI := by
  induction p generalizing t with
  | nil => simp
  | cons x xs ih =>
    obtain ⟨r, rfl⟩ := hp
    have hx : x ≠ '\n' := fun hh => hn (hh ▸ List.mem_cons_self x xs)
    rw [List.cons_append, pyLines_cons_of_ne x _ hx]
    simp only [List.headI]
    exact List.cons_prefix_cons.mpr ⟨rfl,
      ih (xs ++ r) (fun hh => hn (List.mem_cons_of_mem x hh)) (List.prefix_append xs r)⟩

/-- The first line is a prefix of the buffer. -/
theorem pyLines_headI_prefix (t : List Char) : (pyLines t).headI <+: t := by
  induction t with
  | nil => simp [pyLines]
  | cons c cs ih =>
    by_cases hc : c = '\n'
    · subst hc
      rw [pyLines_cons_nl]
      simp
    · rw [pyLines_cons_of_ne c cs hc]
      simp only [List.headI]
      exact List.cons_prefix_cons.mpr ⟨rfl, ih⟩

/-- Every line is an infix of the buffer. -/
theorem infix_of_mem_pyLines (l t : List Char) (h : l ∈ pyLines t) : l <:+: t := by
  induction t generalizing l with
  | nil =>
    simp [pyLines] at h
    simp [h]
  | cons c cs ih =>
    by_cases hc : c = '\n'
    · subst hc
      rw [pyLines_cons_nl] at h
      rcases List.mem_cons.mp h with h | h
      · simp [h]
      · exact (ih l h).trans (List.infix_cons (List.infix_refl cs))
    · rw [pyLines_cons_of_ne c cs hc] at h
      rcases hl : pyLines cs with _ | ⟨f, fs⟩
      · exact absurd hl (pyLines_ne_nil cs)
      · rw [hl] at h
        simp only [List.headI, List.tail] at h
        rcases List.mem_cons.mp h with h | h
        · subst h
          have hf : f <+: cs := by
            have := pyLines_headI_prefix cs
            rw [hl] at this
            exact this
          exact (List.cons_prefix_cons.mpr ⟨rfl, hf⟩).isInfix
        · exact (ih l (by rw [hl]; exact List.mem_cons_of_mem f h)).trans
            (List.infix_cons (List.infix_refl cs))

/-- A nonempty newline-free infix of the buffer is an infix of one of its
lines. -/
theorem infix_line_of_infix (f t : List Char) (hne : f ≠ []) (hn : '\n' ∉ f)
    (h : f <:+: t) : ∃ l ∈ pyLines t, f <:+: l := by
  induction t with
  | nil =>
    rw [List.infix_nil] at h
    exact absurd h hne
  | cons c cs ih =>
    rcases List.infix_cons_iff.mp h with h | h
    · by_cases hc : c = '\n'
      · subst hc
        obtain ⟨r, hr⟩ := h
        cases f with
        | nil => exact absurd rfl hne
        | cons x xs =>
          rw [List.cons_append] at hr
          have hx : x = '\n' := (List.cons.injEq _ _ _ _ ▸ hr).1
          subst hx
          exact absurd (List.mem_cons_self _ _) hn
      · refine ⟨(pyLines (c :: cs)).headI, ?_,
          (prefix_headI_pyLines f (c :: cs) hn h).isInfix⟩
        rcases hpl : pyLines (c :: cs) with _ | ⟨g, gs⟩
        · exact absurd hpl (pyLines_ne_nil _)
        · simp
    · obtain ⟨l, hl, hfl⟩ := ih h
      by_cases hc : c = '\n'
      · subst hc
        exact ⟨l, by rw [pyLines_cons_nl]; exact List.mem_cons_of_mem [] hl, hfl⟩
      · rcases hpl : pyLines cs with _ | ⟨g, gs⟩
        · exact absurd hpl (pyLines_ne_nil cs)
        · rw [hpl] at hl
          rw [pyLines_cons_of_ne c cs hc, hpl]
          simp only [List.headI, List.tail]
          rcases List.mem_cons.mp hl with h1 | h1
          · subst h1
            exact ⟨c :: l, List.mem_cons_self _ _,
              hfl.trans (List.infix_cons (List.infix_refl l))⟩
          · exact ⟨l, List.mem_cons_of_mem _ h1, hfl⟩

/-- Helper to discharge no-occurrence side conditions: if `pat` starts with a
character that does not occur in `a`, no occurrence of `pat` starts in `a`. -/
theorem no_occ_of_head_notMem (h0 : Char) (pat a b : List Char)
    (hpat : ∃ ps, pat = h0 :: ps) (hmem : h0 ∉ a) :
    ∀ s, s <:+ a → s ≠ [] → ¬ pat <+: (s ++ b) := by
  rintro s hs hne hpre
  obtain ⟨ps, rfl⟩ := hpat
  cases s with
  | nil => exact hne rfl
  | cons x xs =>
    obtain ⟨t, ht⟩ := hpre
    rw [List.cons_append, List.cons_append] at ht
    have hx : h0 = x := (List.cons.injEq _ _ _ _ ▸ ht).1
    exact hmem (hx ▸ hs.mem (by simp))

/-- Decompose a buffer at its first newline. -/
theorem exists_first_nl (t : List Char) (h : '\n' ∈ t) :
    ∃ a rest, t = a ++ '\n' :: rest ∧ '\n' ∉ a := by
  induction t with
  | nil => simp at h
  | cons c cs ih =>
    by_cases hc : c = '\n'
    · exact ⟨[], cs, by simp [hc], by simp⟩
    · obtain ⟨a, rest, heq, hna⟩ := ih (by
        rcases List.mem_cons.mp h with h1 | h1
        · exact absurd h1.symm hc
        · exact h1)
      exact ⟨c :: a, rest, by simp [heq], by
        intro hh
        rcases List.mem_cons.mp hh with h1 | h1
        · exact hc h1.symm
        · exact hna h1⟩

/-- Induction over the line structure of a buffer. -/
theorem lines_induction (motive : List Char → Prop)
    (h1 : ∀ t, '\n' ∉ t → motive t)
    (h2 : ∀ l rest, '\n' ∉ l → motive rest → motive (l ++ '\n' :: rest)) :
    ∀ t, motive t := by
  have H : ∀ n t, t.length ≤ n → motive t := by
    intro n
    induction n with
    | zero =>
      intro t ht
      have : t = [] := List.length_eq_zero.mp (Nat.le_zero.mp ht)
      subst this
      exact h1 [] (by simp)
    | succ n ih =>
      intro t ht
      by_cases hmem : '\n' ∈ t
      · obtain ⟨a, rest, heq, hna⟩ := exists_first_nl t hmem
        subst heq
        refine h2 a rest hna (ih rest ?_)
        have := List.length_append a ('\n' :: rest)
        simp only [List.length_cons] at this ht
        omega
      · exact h1 t hmem
  exact fun t => H t.length t le_rfl

end Ldoc

namespace Ldoc

/-- Generic left-to-right rewrite engine, the embedding of `re.sub`: `m t`
decides whether a match starts at the current position; on `some (rep, n)` the
match spans the next `n` characters (always at least one) and is replaced by
`rep`, which is not re-scanned; otherwise one character is emitted and the scan
moves on. -/
def scanRewriteAux (m : List Char → Option (List Char × Nat)) : List Char → Nat → List Char
  | [], _ => []
  | _ :: cs, skip + 1 => scanRewriteAux m cs skip
  | c :: cs, 0 =>
    match m (c :: cs) with
    | some (rep, n) => rep ++ scanRewriteAux m cs (n - 1)
    | none => c :: scanRewriteAux m cs 0

def scanRewrite (m : List Char → Option (List Char × Nat)) (t : List Char) : List Char :=
  scanRewriteAux m t 0

/-- Generic `re.findall`: collect the group data of non-overlapping matches,
left to right. -/
def scanFindAllAux {G : Type} (m : List Char → Option (G × Nat)) : List Char → Nat → List G
  | [], _ => []
  | _ :: cs, skip + 1 => scanFindAllAux m cs skip
  | c :: cs, 0 =>
    match m (c :: cs) with
    | some (g, n) => g :: scanFindAllAux m cs (n - 1)
    | none => scanFindAllAux m cs 0

def scanFindAll {G : Type} (m : List Char → Option (G × Nat)) (t : List Char) : List G :=
  scanFindAllAux m t 0

/-- Generic `re.search`: group data of the leftmost match, if any. -/
def scanFindFirst {G : Type} (m : List Char → Option (G × Nat)) : List Char → Option G
  | [] => none
  | c :: cs =>
    match m (c :: cs) with
    | some (g, _) => some g
    | none => scanFindFirst m cs

theorem scanRewriteAux_skip (m : List Char → Option (List Char × Nat))
    (t : List Char) (k : Nat) :
    scanRewriteAux m t k = scanRewriteAux m (t.drop k) 0 := by
  induction t generalizing k with
  | nil => simp [scanRewriteAux]
  | cons c cs ih =>
    cases k with
    | zero => simp
    | succ k2 => rw [scanRewriteAux, ih k2, List.drop_succ_cons]

theorem scanRewrite_nil (m : List Char → Option (List Char × Nat)) :
    scanRewrite m [] = [] := by
  simp [scanRewrite, scanRewriteAux]

theorem scanRewrite_cons_none (m : List Char → Option (List Char × Nat))
    (c : Char) (cs : List Char) (h : m (c :: cs) = none) :
    scanRewrite m (c :: cs) = c :: scanRewrite m cs := by
  unfold scanRewrite
  rw [scanRewriteAux, h]

theorem scanRewrite_match (m : List Char → Option (List Char × Nat))
    (t rep : List Char) (n : Nat) (h : m t = some (rep, n)) (hn : 1 ≤ n)
    (hne : t ≠ []) :
    scanRewrite m t = rep ++ scanRewrite m (List.drop n t) := by
  cases t with
  | nil => exact absurd rfl hne
  | cons c cs =>
    unfold scanRewrite
    rw [scanRewriteAux, h]
    cases n with
    | zero => omega
    | succ k =>
      show rep ++ scanRewriteAux m cs (k + 1 - 1)
        = rep ++ scanRewriteAux m (List.drop (k + 1) (c :: cs)) 0
      rw [Nat.add_sub_cancel, scanRewriteAux_skip m cs k, List.drop_succ_cons]

theorem scanRewrite_append_of_no_match (m : List Char → Option (List Char × Nat))
    (a b : List Char) (h : ∀ s, s <:+ a → s ≠ [] → m (s ++ b) = none) :
    scanRewrite m (a ++ b) = a ++ scanRewrite m b := by
  induction a with
  | nil => simp
  | cons c cs ih =>
    rw [List.cons_append, scanRewrite_cons_none m c (cs ++ b)
        (by have := h (c :: cs) List.suffix_rfl (by simp); simpa using this),
      ih (fun s hs hne => h s (hs.trans (List.suffix_cons c cs)) hne), List.cons_append]

theorem scanRewrite_of_no_match (m : List Char → Option (List Char × Nat))
    (t : List Char) (h : ∀ s, s <:+ t → s ≠ [] → m s = none) :
    scanRewrite m t = t := by
  have := scanRewrite_append_of_no_match m t [] (fun s hs hne => by
    rw [List.append_nil]; exact h s hs hne)
  simpa [scanRewrite_nil] using this

theorem scanFindAllAux_skip {G : Type} (m : List Char → Option (G × Nat))
    (t : List Char) (k : Nat) :
    scanFindAllAux m t k = scanFindAllAux m (t.drop k) 0 := by
  induction t generalizing k with
  | nil => simp [scanFindAllAux]
  | cons c cs ih =>
    cases k with
    | zero => simp
    | succ k2 => rw [scanFindAllAux, ih k2, List.drop_succ_cons]

theorem scanFindAll_nil {G : Type} (m : List Char → Option (G × Nat)) :
    scanFindAll m [] = [] := by
  simp [scanFindAll, scanFindAllAux]

theorem scanFindAll_cons_none {G : Type} (m : List Char → Option (G × Nat))
    (c : Char) (cs : List Char) (h : m (c :: cs) = none) :
    scanFindAll m (c :: cs) = scanFindAll m cs := by
  unfold scanFindAll
  rw [scanFindAllAux, h]

theorem scanFindAll_match {G : Type} (m : List Char → Option (G × Nat))
    (t : List Char) (g : G) (n : Nat) (h : m t = some (g, n)) (hn : 1 ≤ n)
    (hne : t ≠ []) :
    scanFindAll m t = g :: scanFindAll m (List.drop n t) := by
  cases t with
  | nil => exact absurd rfl hne
  | cons c cs =>
    unfold scanFindAll
    rw [scanFindAllAux, h]
    cases n with
    | zero => omega
    | succ k =>
      show g :: scanFindAllAux m cs (k + 1 - 1)
        = g :: scanFindAllAux m (List.drop (k + 1) (c :: cs)) 0
      rw [Nat.add_sub_cancel, scanFindAllAux_skip m cs k, List.drop_succ_cons]

theorem scanFindAll_append_of_no_match {G : Type} (m : List Char → Option (G × Nat))
    (a b : List Char) (h : ∀ s, s <:+ a → s ≠ [] → m (s ++ b) = none) :
    scanFindAll m (a ++ b) = scanFindAll m b := by
  induction a with
  | nil => simp
  | cons c cs ih =>
    rw [List.cons_append, scanFindAll_cons_none m c (cs ++ b)
        (by have := h (c :: cs) List.suffix_rfl (by simp); simpa using this),
      ih (fun s hs hne => h s (hs.trans (List.suffix_cons c cs)) hne)]

theorem scanFindAll_of_no_match {G : Type} (m : List Char → Option (G × Nat))
    (t : List Char) (h : ∀ s, s <:+ t → s ≠ [] → m s = none) :
    scanFindAll m t = [] := by
  have := scanFindAll_append_of_no_match m t [] (fun s hs hne => by
    rw [List.append_nil]; exact h s hs hne)
  simpa [scanFindAll_nil] using this

theorem scanFindFirst_cons_none {G : Type} (m : List Char → Option (G × Nat))
    (c : Char) (cs : List Char) (h : m (c :: cs) = none) :
    scanFindFirst m (c :: cs) = scanFindFirst m cs := by
  rw [scanFindFirst, h]

theorem scanFindFirst_match {G : Type} (m : List Char → Option (G × Nat))
    (t : List Char) (g : G) (n : Nat) (h : m t = some (g, n)) (hne : t ≠ []) :
    scanFindFirst m t = some g := by
  cases t with
  | nil => exact absurd rfl hne
  | cons c cs => rw [scanFindFirst, h]

theorem scanFindFirst_append_of_no_match {G : Type} (m : List Char → Option (G × Nat))
    (a b : List Char) (h : ∀ s, s <:+ a → s ≠ [] → m (s ++ b) = none) :
    scanFindFirst m (a ++ b) = scanFindFirst m b := by
  induction a with
  | nil => simp
  | cons c cs ih =>
    rw [List.cons_append, scanFindFirst_cons_none m c (cs ++ b)
        (by have := h (c :: cs) List.suffix_rfl (by simp); simpa using this),
      ih (fun s hs hne => h s (hs.trans (List.suffix_cons c cs)) hne)]

theorem scanFindFirst_of_no_match {G : Type} (m : List Char → Option (G × Nat))
    (t : List Char) (h : ∀ s, s <:+ t → s ≠ [] → m s = none) :
    scanFindFirst m t = none := by
  induction t with
  | nil => simp [scanFindFirst]
  | cons c cs ih =>
    rw [scanFindFirst_cons_none m c cs (h (c :: cs) List.suffix_rfl (by simp)),
      ih (fun s hs hne => h s (hs.trans (List.suffix_cons c cs)) hne)]

/-- Suffix form of `matcher_none_of_head` below, for the tail region. -/
theorem matcher_none_of_head_suffix {G : Type} (m : List Char → Option (G × Nat))
    (h0 : Char) (hm : ∀ t r, m t = some r → ∃ s, t = h0 :: s)
    (a : List Char) (hmem : h0 ∉ a) :
    ∀ s, s <:+ a → s ≠ [] → m s = none := by
  intro s hs hne
  rcases hr : m s with _ | r
  · rfl
  · obtain ⟨tail0, htail⟩ := hm _ _ hr
    cases s with
    | nil => exact absurd rfl hne
    | cons x xs =>
      have hx : x = h0 := (List.cons.injEq _ _ _ _ ▸ htail).1
      exact absurd (hx ▸ hs.mem (List.mem_cons_self x xs)) hmem

/-- If every match of `m` starts with the character `h0`, then `m` finds
nothing inside a region avoiding `h0`. -/
theorem matcher_none_of_head {G : Type} (m : List Char → Option (G × Nat))
    (h0 : Char) (hm : ∀ t r, m t = some r → ∃ s, t = h0 :: s)
    (a b : List Char) (hmem : h0 ∉ a) :
    ∀ s, s <:+ a → s ≠ [] → m (s ++ b) = none := by
  intro s hs hne
  rcases hr : m (s ++ b) with _ | r
  · rfl
  · obtain ⟨tail0, htail⟩ := hm _ _ hr
    cases s with
    | nil => exact absurd rfl hne
    | cons x xs =>
      rw [List.cons_append] at htail
      have hx : x = h0 := (List.cons.injEq _ _ _ _ ▸ htail).1
      exact absurd (hx ▸ hs.mem (List.mem_cons_self x xs)) hmem

end Ldoc

namespace Ldoc

/-! ### Stage definitions, in the order of `parse_ldoc` (src/ldoc.py) -/

/-- Lookup in the embedded file system (association list path to contents);
a successful lookup plays the role of `os.path.exists` plus `open().read()`. -/
def fsLookup (fs : List (List Char × List Char)) (p : List Char) : Option (List Char) :=
  match fs with
  | [] => none
  | (q, c) :: rest => if q = p then some c else fsLookup rest p

/-- `os.path.join(base_dir or "", path)` for the cases the program exercises:
empty base returns the path, an absolute path wins, otherwise the parts are
joined with a single separator. -/
def pyJoin (base p : List Char) : List Char :=
  if base = [] then p
  else if p.head? = some '/' then p
  else if base.getLast? = some '/' then base ++ p
  else base ++ '/' :: p

/-- Matcher for `@include (.+)` (line 14): the literal `@include ` followed by
at least one non-newline character; group 0 extends greedily to the end of the
line.  Returns (group 0, match length). -/
def includeMatch (t : List Char) : Option (List Char × Nat) :=
  if ("@include ".toList).isPrefixOf t then
    let rest := t.drop ("@include ".toList).length
    let tail0 := rest.takeWhile (fun c => c != '\n')
    if tail0 = [] then none
    else some ("@include ".toList ++ tail0, ("@include ".toList).length + tail0.length)
  else none

/-- The inline error marker of line 25 (single quotes written via `sq`). -/
def errMarker (p : List Char) : List Char :=
  "<div class=".toList ++ [sq] ++ "error".toList ++ [sq] ++ ">Missing include: ".toList
    ++ p ++ "</div>".toList

/-- One iteration of the include loop (lines 15-25): find the leftmost
directive; replace every occurrence of its matched text by the contents of the
resolved file, or by the error marker when the file does not exist.  `none`
means no directive remains. -/
def includeStep (fs : List (List Char × List Char)) (base t : List Char) :
    Option (List Char) :=
  match scanFindFirst includeMatch t with
  | none => none
  | some g0 =>
    let p := pyStrip (g0.drop ("@include ".toList).length)
    match fsLookup fs (pyJoin base p) with
    | some content => some (replaceAll g0 content t)
    | none => some (replaceAll g0 (errMarker p) t)

/-- The `while re.search(...)` loop of line 15, with explicit fuel; `none`
means the fuel ran out with the loop still going. -/
def resolveIncludes (fs : List (List Char × List Char)) (base : List Char) :
    Nat → List Char → Option (List Char)
  | 0, _ => none
  | n + 1, t =>
    match includeStep fs base t with
    | none => some t
    | some t2 => resolveIncludes fs base n t2

/-- Matcher for `@title:\s*(.+)` (lines 29-31): greedy whitespace after the
literal, then the rest of the line; when the whitespace runs to the end of the
buffer, the greedy `\s*` backtracks so that `(.+)` can still take one final
non-newline whitespace character. -/
def titleMatch (t : List Char) : Option (List Char × Nat) :=
  if ("@title:".toList).isPrefixOf t then
    let rest := t.drop ("@title:".toList).length
    let w := rest.takeWhile isPyWS
    let r := rest.drop w.length
    if r ≠ [] then
      let g := r.takeWhile (fun c => c != '\n')
      some (g, ("@title:".toList).length + w.length + g.length)
    else
      match w.reverse.dropWhile (fun c => c == '\n') with
      | [] => none
      | c :: _ =>
        some ([c], ("@title:".toList).length + (w.reverse.dropWhile (fun c => c == '\n')).length)
  else none

/-- Lines 29-31: the title is group 1 of the first match (default
`Documentation`); every match is deleted from the buffer. -/
def extractTitle (t : List Char) : List Char × List Char :=
  let title := match scanFindFirst titleMatch t with
    | some g => g
    | none => "Documentation".toList
  (scanRewrite (fun s => (titleMatch s).map (fun gn => ([], gn.2))) t, title)

/-- Matcher for `@var (\w+)=(.+)` (lines 35-37): groups (name, value). -/
def varMatch (t : List Char) : Option ((List Char × List Char) × Nat) :=
  if ("@var ".toList).isPrefixOf t then
    let rest := t.drop ("@var ".toList).length
    let name := rest.takeWhile isWordChar
    if name = [] then none
    else
      match rest.drop name.length with
      | '=' :: r2 =>
        let v := r2.takeWhile (fun c => c != '\n')
        if v = [] then none
        else some ((name, v), ("@var ".toList).length + name.length + 1 + v.length)
      | _ => none
  else none

/-- Python dict assignment `d[k] = v`: overwrite in place keeping the position
of the key, else append (insertion order preserved). -/
def pyDictInsert (k v : List Char) :
    List (List Char × List Char) → List (List Char × List Char)
  | [] => [(k, v)]
  | (k2, v2) :: rest =>
    if k2 = k then (k, v) :: rest else (k2, v2) :: pyDictInsert k v rest

/-- Python dict lookup (keys are unique, the first hit wins). -/
def pyDictGet (k : List Char) : List (List Char × List Char) → Option (List Char)
  | [] => none
  | (k2, v2) :: rest => if k2 = k then some v2 else pyDictGet k rest

/-- Lines 35-36: record every declaration into the table, value stripped,
later declarations of a name overwriting earlier ones. -/
def collectVars (tbl : List (List Char × List Char)) (t : List Char) :
    List (List Char × List Char) :=
  (scanFindAll varMatch t).foldl (fun d nv => pyDictInsert nv.1 (pyStrip nv.2) d) tbl

/-- Line 37: `re.sub(r'@var \w+=.+', '', text)`. -/
def stripVarDecls (t : List Char) : List Char :=
  scanRewrite (fun s => (varMatch s).map (fun gn => ([], gn.2))) t

/-- Lines 39-40: `text.replace("@" + key, val)` for every table entry, in
table (insertion) order. -/
def substVars (tbl : List (List Char × List Char)) (t : List Char) : List Char :=
  tbl.foldl (fun txt kv => replaceAll ('@' :: kv.1) kv.2 txt) t

/-- Matcher for `@if (\w+)=(.+?)\n(.*?)@endif` under re.S (line 44): the lazy
value group ends at the first newline coming after at least one character, the
lazy block group ends at the first later `@endif`.  Groups (var, value, block). -/
def condMatch (t : List Char) : Option ((List Char × List Char × List Char) × Nat) :=
  if ("@if ".toList).isPrefixOf t then
    let rest := t.drop ("@if ".toList).length
    let var := rest.takeWhile isWordChar
    if var = [] then none
    else
      match rest.drop var.length with
      | '=' :: r2 =>
        match r2 with
        | [] => none
        | c0 :: r3 =>
          match splitFirst ['\n'] r3 with
          | none => none
          | some (vt, r4) =>
            match splitFirst ("@endif".toList) r4 with
            | none => none
            | some (blk, _) =>
              let v := c0 :: vt
              some ((var, v, blk),
                ("@if ".toList).length + var.length + 1 + v.length + 1 + blk.length
                  + ("@endif".toList).length)
      | _ => none
  else none

/-- Python truthiness of the optional platform string (line 47 tests
`if platform and ...`, so an empty string behaves like no platform). -/
def platformTruthy (platform : Option (List Char)) : Bool :=
  match platform with
  | none => false
  | some p => !p.isEmpty

/-- Group 0 rebuilt from the captured groups, as the f-string on lines 48
and 50 does. -/
def condGroup0 (c : List Char × List Char × List Char) : List Char :=
  "@if ".toList ++ c.1 ++ '=' :: c.2.1 ++ '\n' :: c.2.2 ++ "@endif".toList

/-- Lines 44-50: findall on the buffer, then one replace-all per match; the
body is kept exactly when the platform is supplied (and truthy), the variable
is PLATFORM and the platform equals the value. -/
def condStage (platform : Option (List Char)) (t : List Char) : List Char :=
  (scanFindAll condMatch t).foldl (fun txt c =>
    if platformTruthy platform ∧ c.1 = "PLATFORM".toList ∧ platform = some c.2.1 then
      replaceAll (condGroup0 c) c.2.2 txt
    else
      replaceAll (condGroup0 c) [] txt) t

/-- Matcher for `@codeblock (\w+) (\w+)\n(.*?)@endcodeblock` under re.S
(line 54).  Groups (lang, name, code). -/
def codeblockMatch (t : List Char) :
    Option ((List Char × List Char × List Char) × Nat) :=
  if ("@codeblock ".toList).isPrefixOf t then
    let r1 := t.drop ("@codeblock ".toList).length
    let lang := r1.takeWhile isWordChar
    if lang = [] then none
    else
      match r1.drop lang.length with
      | ' ' :: r2 =>
        let name := r2.takeWhile isWordChar
        if name = [] then none
        else
          match r2.drop name.length with
          | '\n' :: r3 =>
            match splitFirst ("@endcodeblock".toList) r3 with
            | none => none
            | some (code, _) =>
              some ((lang, name, code),
                ("@codeblock ".toList).length + lang.length + 1 + name.length + 1
                  + code.length + ("@endcodeblock".toList).length)
          | _ => none
      | _ => none
  else none

/-- Line 56: the snippet stored in the registry. -/
def codeSnippet (lang code : List Char) : List Char :=
  "<pre><code class=\"".toList ++ lang ++ "\">".toList ++ pyStrip code
    ++ "</code></pre>".toList

/-- Lines 55-56: build the registry (a later block of the same name wins). -/
def codeblockRegistry (t : List Char) : List (List Char × List Char) :=
  (scanFindAll codeblockMatch t).foldl
    (fun d m => pyDictInsert m.2.1 (codeSnippet m.1 m.2.2) d) []

/-- Line 57: `re.sub(block_pattern, '', text)`. -/
def stripCodeblocks (t : List Char) : List Char :=
  scanRewrite (fun s => (codeblockMatch s).map (fun gn => ([], gn.2))) t

/-- Lines 60-61: replace `@usecode NAME` in registry order. -/
def substUsecode (reg : List (List Char × List Char)) (t : List Char) : List Char :=
  reg.foldl (fun txt kv => replaceAll ("@usecode ".toList ++ kv.1) kv.2 txt) t

/-- One line of the TOC scan `^(#{1,3}) (.+)$` under re.M (line 66): one to
three hash marks, a space, then nonempty heading text to the end of the line. -/
def headingOfLine (l : List Char) : Option (Nat × List Char) :=
  let hs := l.takeWhile (fun c => c == '#')
  if 1 ≤ hs.length ∧ hs.length ≤ 3 then
    match l.drop hs.length with
    | ' ' :: rest => if rest = [] then none else some (hs.length, rest)
    | _ => none
  else none

/-- Line 69: the anchor slug computed by the TOC builder
(`heading_text.lower().replace(" ", "-")`). -/
def tocAnchor (s : List Char) : List Char :=
  (s.map Char.toLower).map (fun c => if c = ' ' then '-' else c)

/-- Lines 65-70: the heading entries (level, text, anchor) in document order. -/
def tocEntries (t : List Char) : List (Nat × List Char × List Char) :=
  (pyLines t).filterMap
    (fun l => (headingOfLine l).map (fun e => (e.1, e.2, tocAnchor e.2)))

/-- Line 74: one TOC list item. -/
def tocItem (e : Nat × List Char × List Char) : List Char :=
  "<li class=".toList ++ [sq] ++ "level-".toList ++ (Nat.repr e.1).toList ++ [sq]
    ++ "><a href=".toList ++ [sq] ++ '#' :: e.2.2 ++ [sq] ++ '>' :: e.2.1
    ++ "</a></li>".toList

/-- Lines 72-75: the navigation fragment. -/
def tocHtml (t : List Char) : List Char :=
  "<nav class=".toList ++ [sq] ++ "toc".toList ++ [sq]
    ++ "><h3>Table of Contents</h3><ul>".toList
    ++ (tocEntries t).foldl (fun acc e => acc ++ tocItem e) []
    ++ "</ul></nav>".toList

/-- Line 76: `text.replace("@toc", toc_html)`. -/
def tocStage (t : List Char) : List Char := replaceAll ("@toc".toList) (tocHtml t) t

/-- Lines 82-84: the id slug recomputed inside each heading lambda
(`m.group(1).lower().replace(" ", "-")`). -/
def headingId (s : List Char) : List Char :=
  (s.map Char.toLower).map (fun c => if c = ' ' then '-' else c)

/-- One whole-line heading rewrite `^#..# (.+)$` (re.M) at a given level. -/
def headingLineSub (lvl : Nat) (l : List Char) : List Char :=
  let pat := List.replicate lvl '#' ++ [' ']
  if pat.isPrefixOf l ∧ pat.length < l.length then
    let txt := l.drop pat.length
    "<h".toList ++ (Nat.repr lvl).toList ++ " id=\"".toList ++ headingId txt
      ++ "\">".toList ++ txt ++ "</h".toList ++ (Nat.repr lvl).toList ++ ">".toList
  else l

/-- Lines 82-84: the three heading passes, h3 first, then h2, then h1. -/
def headingStage (t : List Char) : List Char :=
  mapLines (headingLineSub 1) (mapLines (headingLineSub 2) (mapLines (headingLineSub 3) t))

/-- Lines 88-89: escape `&`, then `<`, then `>`. -/
def htmlEscape (s : List Char) : List Char :=
  replaceAll ['>'] ("&gt;".toList)
    (replaceAll ['<'] ("&lt;".toList)
      (replaceAll ['&'] ("&amp;".toList) s))

/-- Line 92: `^@command: (.+)$` (re.M) as a whole-line rewrite. -/
def commandLineSub (l : List Char) : List Char :=
  if ("@command: ".toList).isPrefixOf l ∧ ("@command: ".toList).length < l.length then
    "<pre><code class=\"command\">".toList
      ++ htmlEscape (l.drop ("@command: ".toList).length) ++ "</code></pre>".toList
  else l

def commandStage (t : List Char) : List Char := mapLines commandLineSub t

/-- Matcher for the fenced-code pattern of line 95 (triple backticks, optional
language word, a newline, lazy body to the closing triple backticks, re.S). -/
def fenceMatch (t : List Char) : Option (List Char × Nat) :=
  if [bq, bq, bq].isPrefixOf t then
    let rest := t.drop 3
    let lang := rest.takeWhile isWordChar
    match rest.drop lang.length with
    | '\n' :: r2 =>
      match splitFirst [bq, bq, bq] r2 with
      | none => none
      | some (body, _) =>
        some ("<pre><code class=\"".toList ++ lang ++ "\">".toList ++ body
            ++ "</code></pre>".toList,
          3 + lang.length + 1 + body.length + 3)
    | _ => none
  else none

def fenceStage (t : List Char) : List Char := scanRewrite fenceMatch t

/-- Matcher for inline code (line 98): a backtick, one or more non-backtick
characters, a closing backtick. -/
def inlineCodeMatch (t : List Char) : Option (List Char × Nat) :=
  match t with
  | c :: cs =>
    if c = bq then
      let body := cs.takeWhile (fun x => x != bq)
      if body = [] then none
      else
        match cs.drop body.length with
        | d :: _ =>
          if d = bq then
            some ("<code>".toList ++ body ++ "</code>".toList, 1 + body.length + 1)
          else none
        | [] => none
    else none
  | [] => none

/-- Matcher for `\*\*(.+?)\*\*` (line 101): lazy nonempty newline-free body,
closed by the first later `**`. -/
def boldMatch (t : List Char) : Option (List Char × Nat) :=
  match t with
  | '*' :: '*' :: c0 :: rest =>
    if c0 = '\n' then none
    else
      match splitFirstNoNL ['*', '*'] rest with
      | some (a, _) =>
        some ("<strong>".toList ++ (c0 :: a) ++ "</strong>".toList, 2 + (a.length + 1) + 2)
      | none => none
  | _ => none

/-- Matcher for `\*(.+?)\*` (line 102). -/
def italicMatch (t : List Char) : Option (List Char × Nat) :=
  match t with
  | '*' :: c0 :: rest =>
    if c0 = '\n' then none
    else
      match splitFirstNoNL ['*'] rest with
      | some (a, _) =>
        some ("<em>".toList ++ (c0 :: a) ++ "</em>".toList, 1 + (a.length + 1) + 1)
      | none => none
  | _ => none

/-- Line 105: `^\-\-\-$` (re.M), a line that is exactly three dashes. -/
def hrLineSub (l : List Char) : List Char :=
  if l = "---".toList then "<hr>".toList else l

def hrStage (t : List Char) : List Char := mapLines hrLineSub t

/-- Lines 109-116: `^\- \[( |x|X)\] (.+)$` (re.M) as a whole-line rewrite;
the checkbox is checked exactly when the mark lowercases to `x`. -/
def taskLineSub (l : List Char) : List Char :=
  match l with
  | '-' :: ' ' :: '[' :: m :: ']' :: ' ' :: rest =>
    if (m = ' ' ∨ m = 'x' ∨ m = 'X') ∧ rest ≠ [] then
      let checkbox := "<input type=\"checkbox\" disabled".toList
        ++ (if m = 'x' ∨ m = 'X' then " checked".toList else []) ++ ['>']
      "<li class=\"task-item\">".toList ++ checkbox ++ ' ' :: rest ++ "</li>".toList
    else l
  | _ => l

def taskStage (t : List Char) : List Char := mapLines taskLineSub t

/-- Line 119: `^\- (.+)$` (re.M) as a whole-line rewrite. -/
def listLineSub (l : List Char) : List Char :=
  match l with
  | '-' :: ' ' :: rest =>
    if rest ≠ [] then "<li>".toList ++ rest ++ "</li>".toList else l
  | _ => l

def listStage (t : List Char) : List Char := mapLines listLineSub t

/-- Matcher for `(<li>.*?</li>)` under re.S (line 122): the literal `<li>`,
a lazy body up to the first `</li>`. -/
def wrapLiMatch (t : List Char) : Option (List Char × Nat) :=
  if ("<li>".toList).isPrefixOf t then
    match splitFirst ("</li>".toList) (t.drop ("<li>".toList).length) with
    | some (body, _) =>
      some ("<ul><li>".toList ++ body ++ "</li></ul>".toList,
        ("<li>".toList).length + body.length + ("</li>".toList).length)
    | none => none
  else none

/-- Line 122: wrap each match in `<ul>...</ul>`. -/
def wrapStage (t : List Char) : List Char := scanRewrite wrapLiMatch t

/-- Matcher for `\[(.*?)\]\((.*?)\)` (line 125): both groups lazy and
newline-free; group 1 is closed by the first `](`, group 2 by the first `)`. -/
def linkMatch (t : List Char) : Option (List Char × Nat) :=
  match t with
  | '[' :: rest =>
    match splitFirstNoNL ("](".toList) rest with
    | some (txt, r2) =>
      match splitFirstNoNL [')'] r2 with
      | some (url, _) =>
        some ("<a href=\"".toList ++ url ++ "\">".toList ++ txt ++ "</a>".toList,
          1 + txt.length + 2 + url.length + 1)
      | none => none
    | none => none
  | _ => none

/-- Matcher for `@image: (.+?) "(.*?)"` (line 129). -/
def imageMatch (t : List Char) : Option (List Char × Nat) :=
  if ("@image: ".toList).isPrefixOf t then
    match t.drop ("@image: ".toList).length with
    | c0 :: rest =>
      if c0 = '\n' then none
      else
        match splitFirstNoNL [' ', '"'] rest with
        | some (a, r2) =>
          match splitFirstNoNL ['"'] r2 with
          | some (alt, _) =>
            some ("<img src=\"".toList ++ (c0 :: a) ++ "\" alt=\"".toList ++ alt
                ++ "\">".toList,
              ("@image: ".toList).length + (a.length + 1) + 2 + alt.length + 1)
          | none => none
        | none => none
    | [] => none
  else none

/-- Matcher for `@video: (.+)` (line 130). -/
def videoMatch (t : List Char) : Option (List Char × Nat) :=
  if ("@video: ".toList).isPrefixOf t then
    let rest := t.drop ("@video: ".toList).length
    let url := rest.takeWhile (fun c => c != '\n')
    if url = [] then none
    else
      some ("<iframe src=\"".toList ++ url
          ++ "\" frameborder=\"0\" allowfullscreen></iframe>".toList,
        ("@video: ".toList).length + url.length)
  else none

/-- Matcher for one callout `@TAG: (.+)` of lines 134-138; `extra` is the
additional `TODO: ` prefix used by the todo rule. -/
def calloutMatch (tag cls extra : List Char) (t : List Char) :
    Option (List Char × Nat) :=
  if tag.isPrefixOf t then
    let body := (t.drop tag.length).takeWhile (fun c => c != '\n')
    if body = [] then none
    else
      some ("<div class=\"".toList ++ cls ++ "\">".toList ++ extra ++ body
          ++ "</div>".toList,
        tag.length + body.length)
  else none

/-- Lines 134-138: the five callout passes, in source order. -/
def calloutStage (t : List Char) : List Char :=
  scanRewrite (calloutMatch ("@todo: ".toList) ("todo".toList) ("TODO: ".toList))
    (scanRewrite (calloutMatch ("@tip: ".toList) ("tip".toList) [])
      (scanRewrite (calloutMatch ("@info: ".toList) ("info".toList) [])
        (scanRewrite (calloutMatch ("@warning: ".toList) ("warning".toList) [])
          (scanRewrite (calloutMatch ("@note: ".toList) ("note".toList) []) t))))

/-- Line 145: the allowed alert types. -/
def alertAllowed : List (List Char) :=
  ["info".toList, "warning".toList, "error".toList, "success".toList]

/-- Matcher for `@alert (\w+)\n(.*?)@endalert` under re.S (lines 142-149):
the replacement carries the generic `alert` class plus the type class, the
type falling back to `info` when not allowed; the content is stripped. -/
def alertMatch (t : List Char) : Option (List Char × Nat) :=
  if ("@alert ".toList).isPrefixOf t then
    let rest := t.drop ("@alert ".toList).length
    let ty := rest.takeWhile isWordChar
    if ty = [] then none
    else
      match rest.drop ty.length with
      | '\n' :: r2 =>
        match splitFirst ("@endalert".toList) r2 with
        | some (body, _) =>
          let ty2 := pyStrip ty
          let cls := if ty2 ∈ alertAllowed then ty2 else "info".toList
          some ("<div class=\"alert ".toList ++ cls ++ "\">".toList ++ pyStrip body
              ++ "</div>".toList,
            ("@alert ".toList).length + ty.length + 1 + body.length
              + ("@endalert".toList).length)
        | none => none
      | _ => none
  else none

def alertStage (t : List Char) : List Char := scanRewrite alertMatch t

/-- Matcher for `@badge: (\w+)\|(\w+)\|(\w+)` (line 153). -/
def badgeMatch (t : List Char) : Option (List Char × Nat) :=
  if ("@badge: ".toList).isPrefixOf t then
    let r1 := t.drop ("@badge: ".toList).length
    let lbl := r1.takeWhile isWordChar
    if lbl = [] then none
    else
      match r1.drop lbl.length with
      | '|' :: r2 =>
        let v := r2.takeWhile isWordChar
        if v = [] then none
        else
          match r2.drop v.length with
          | '|' :: r3 =>
            let kind := r3.takeWhile isWordChar
            if kind = [] then none
            else
              some ("<span class=\"badge ".toList ++ kind ++ "\">".toList ++ lbl
                  ++ ": ".toList ++ v ++ "</span>".toList,
                ("@badge: ".toList).length + lbl.length + 1 + v.length + 1 + kind.length)
          | _ => none
      | _ => none
  else none

/-- Python `str.split(sep)` with a one-character separator, empties kept. -/
def pySplitOn (sep : Char) : List Char → List (List Char)
  | [] => [[]]
  | c :: cs =>
    if c = sep then [] :: pySplitOn sep cs
    else
      match pySplitOn sep cs with
      | [] => [[c]]
      | l :: ls => (c :: l) :: ls

/-- Python `str.splitlines()` restricted to newline separators (the only
separators the pipeline produces): no entry for a trailing newline, and the
empty string gives no rows. -/
def pySplitLines (s : List Char) : List (List Char) :=
  if s = [] then []
  else if s.getLast? = some '\n' then pyLines s.dropLast
  else pyLines s

/-- Lines 160-165: one table row; columns split on `|` and stripped. -/
def tableRow (isHeader : Bool) (row : List Char) : List Char :=
  let cols := (pySplitOn '|' row).map pyStrip
  "<tr>".toList
    ++ cols.foldl (fun acc c =>
        acc ++ (if isHeader then "<th>".toList ++ c ++ "</th>".toList
                else "<td>".toList ++ c ++ "</td>".toList)) []
    ++ "</tr>".toList

/-- Lines 157-167: the whole table element; the first row is the header. -/
def tableHtml (content : List Char) : List Char :=
  let rows := pySplitLines (pyStrip content)
  "<table>".toList
    ++ (match rows with
        | [] => []
        | r :: rs => tableRow true r ++ (rs.map (tableRow false)).foldl (· ++ ·) [])
    ++ "</table>".toList

/-- Matcher for `@table:\s*(.*?)@endtable` under re.S (line 168). -/
def tableMatch (t : List Char) : Option (List Char × Nat) :=
  if ("@table:".toList).isPrefixOf t then
    let rest := t.drop ("@table:".toList).length
    let w := rest.takeWhile isPyWS
    match splitFirst ("@endtable".toList) (rest.drop w.length) with
    | some (body, _) =>
      some (tableHtml body,
        ("@table:".toList).length + w.length + body.length + ("@endtable".toList).length)
    | none => none
  else none

/-- Matcher for `\n{2,}` (line 172): a maximal run of at least two newlines. -/
def paraMatch (t : List Char) : Option (List Char × Nat) :=
  match t with
  | '\n' :: '\n' :: _ => some ("</p><p>".toList, (t.takeWhile (fun c => c == '\n')).length)
  | _ => none

/-- Lines 172-173: paragraph boundaries, then the outer paragraph wrap. -/
def paraStage (t : List Char) : List Char :=
  "<p>".toList ++ scanRewrite paraMatch t ++ "</p>".toList

/-- The whole of `parse_ldoc` (lines 8-175): the rewritten buffer and the
extracted title.  `fuel` bounds the include loop; `none` means the loop was
still running when the fuel ran out (the circular-include case). -/
def parse_ldoc (fs : List (List Char × List Char)) (base : List Char)
    (varsIn : List (List Char × List Char)) (platform : Option (List Char))
    (fuel : Nat) (text : List Char) : Option (List Char × List Char) :=
  match resolveIncludes fs base fuel text with
  | none => none
  | some t1 =>
    let et := extractTitle t1
    let tbl := collectVars varsIn et.1
    let t3 := substVars tbl (stripVarDecls et.1)
    let t4 := condStage platform t3
    let reg := codeblockRegistry t4
    let t5 := substUsecode reg (stripCodeblocks t4)
    let t6 := tocStage t5
    let t7 := headingStage t6
    let t8 := commandStage t7
    let t9 := fenceStage t8
    let t10 := scanRewrite inlineCodeMatch t9
    let t11 := scanRewrite boldMatch t10
    let t12 := scanRewrite italicMatch t11
    let t13 := hrStage t12
    let t14 := taskStage t13
    let t15 := listStage t14
    let t16 := wrapStage t15
    let t17 := scanRewrite linkMatch t16
    let t18 := scanRewrite imageMatch t17
    let t19 := scanRewrite videoMatch t18
    let t20 := calloutStage t19
    let t21 := alertStage t20
    let t22 := scanRewrite badgeMatch t21
    let t23 := scanRewrite tableMatch t22
    some (paraStage t23, et.2)

/-- The variable table the caller observes after `parse_ldoc` returns.  By
`vars_dict = vars_dict or {}` (line 9), a non-empty caller dictionary is the
very object the declarations of lines 35-36 are recorded into, so the caller
sees the updated table; an empty caller dictionary is replaced by a fresh
internal one and is never touched. -/
def callerTableAfter (fs : List (List Char × List Char)) (base : List Char)
    (varsIn : List (List Char × List Char)) (fuel : Nat) (text : List Char) :
    Option (List (List Char × List Char)) :=
  match resolveIncludes fs base fuel text with
  | none => none
  | some t1 =>
    if varsIn = [] then some varsIn
    else some (collectVars varsIn (extractTitle t1).1)

end Ldoc

namespace Ldoc

/-! ### Support lemmas for the stage proofs -/

theorem splitFirst_append_left (pat b : List Char) (hpat : pat ≠ []) :
    splitFirst pat (pat ++ b) = some ([], b) := by
  cases hp : pat with
  | nil => exact absurd hp hpat
  | cons p ps =>
    subst hp
    rw [List.cons_append, splitFirst, if_pos]
    · congr 2
      simp only [List.length_cons, Nat.add_sub_cancel]
      rw [List.drop_left']
      simp
    · refine ⟨hpat, ?_⟩
      rw [← List.cons_append]
      exact List.isPrefixOf_iff_prefix.mpr (List.prefix_append _ _)

theorem splitFirst_cons_neg (pat : List Char) (c : Char) (cs : List Char)
    (h : ¬ (pat ≠ [] ∧ pat.isPrefixOf (c :: cs))) :
    splitFirst pat (c :: cs) =
      (splitFirst pat cs).map (fun ab => (c :: ab.1, ab.2)) := by
  rw [splitFirst, if_neg h]
  cases splitFirst pat cs with
  | none => rfl
  | some ab => cases ab; rfl

theorem splitFirst_append_of_no_occ (pat a rest : List Char)
    (h : ∀ s, s <:+ a → s ≠ [] → ¬ pat <+: (s ++ rest)) :
    splitFirst pat (a ++ rest) =
      (splitFirst pat rest).map (fun ab => (a ++ ab.1, ab.2)) := by
  induction a with
  | nil =>
    simp only [List.nil_append]
    cases hsp : splitFirst pat rest with
    | none => rfl
    | some ab => cases ab with | mk x y => simp
  | cons c cs ih =>
    rw [List.cons_append, splitFirst_cons_neg, ih
      (fun s hs hne => h s (hs.trans (List.suffix_cons c cs)) hne)]
    · cases hsp : splitFirst pat rest with
      | none => rfl
      | some ab => simp
    · rintro ⟨hne, hpre⟩
      exact h (c :: cs) List.suffix_rfl (by simp)
        (by simpa using List.isPrefixOf_iff_prefix.mp hpre)

/-- The working form: split around a marked occurrence when no occurrence can
start earlier. -/
theorem splitFirst_eq (pat a b : List Char) (hpat : pat ≠ [])
    (ha : ∀ s, s <:+ a → s ≠ [] → ¬ pat <+: (s ++ (pat ++ b))) :
    splitFirst pat (a ++ (pat ++ b)) = some (a, b) := by
  rw [splitFirst_append_of_no_occ pat a (pat ++ b) ha,
    splitFirst_append_left pat b hpat]
  simp

theorem splitFirst_of_not_infix (pat t : List Char) (h : ¬ pat <:+: t) :
    splitFirst pat t = none := by
  have hpat : pat ≠ [] := by
    rintro rfl
    exact h List.nil_infix
  have hmain := splitFirst_append_of_no_occ pat t [] (by
    intro s hs hne hpre
    rw [List.append_nil] at hpre
    exact h (hpre.isInfix.trans hs.isInfix))
  rw [List.append_nil] at hmain
  have h0 : splitFirst pat [] = none := by
    rw [splitFirst, if_neg hpat]
  rw [hmain, h0]
  rfl

theorem dropWhile_eq_self_of_all (p : Char → Bool) (l : List Char)
    (h : ∀ c ∈ l, p c = false) : l.dropWhile p = l := by
  cases l with
  | nil => rfl
  | cons c cs =>
    rw [List.dropWhile_cons_of_neg]
    simp [h c (List.mem_cons_self c cs)]

theorem pyStrip_of_no_ws (s : List Char) (h : ∀ c ∈ s, isPyWS c = false) :
    pyStrip s = s := by
  unfold pyStrip
  rw [dropWhile_eq_self_of_all isPyWS s h,
    dropWhile_eq_self_of_all isPyWS s.reverse
      (fun c hc => h c (List.mem_reverse.mp hc)),
    List.reverse_reverse]

theorem takeWhile_append_all (p : Char → Bool) (a b : List Char)
    (h : ∀ c ∈ a, p c = true) :
    (a ++ b).takeWhile p = a ++ b.takeWhile p := by
  induction a with
  | nil => simp
  | cons c cs ih =>
    rw [List.cons_append, List.takeWhile_cons_of_pos (h c (List.mem_cons_self c cs)),
      ih (fun x hx => h x (List.mem_cons_of_mem c hx)), List.cons_append]

/-- A run of `p`-characters delimited by a failing character. -/
theorem takeWhile_middle (p : Char → Bool) (a : List Char) (c : Char) (b : List Char)
    (ha : ∀ x ∈ a, p x = true) (hc : p c = false) :
    (a ++ c :: b).takeWhile p = a := by
  rw [takeWhile_append_all p a (c :: b) ha, List.takeWhile_cons_of_neg (by simp [hc])]
  simp

theorem takeWhile_all (p : Char → Bool) (a : List Char) (ha : ∀ x ∈ a, p x = true) :
    a.takeWhile p = a := by
  have := takeWhile_append_all p a [] ha
  simpa using this

/-- A word character is not Python whitespace. -/
theorem word_not_ws (c : Char) (h : isWordChar c = true) : isPyWS c = false := by
  by_contra hc
  have h2 : isPyWS c = true := by
    cases hws : isPyWS c
    · exact absurd hws hc
    · rfl
  simp only [isPyWS, Bool.or_eq_true, decide_eq_true_eq] at h2
  rcases h2 with ((((h2 | h2) | h2) | h2) | h2) | h2 <;> subst h2 <;>
    exact absurd h (by decide)

/-- A word character is not a newline. -/
theorem word_not_nl (c : Char) (h : isWordChar c = true) : c ≠ '\n' := by
  intro hc
  subst hc
  exact absurd h (by decide)

end Ldoc

namespace Ldoc

/-! ### C7: alert blocks -/

theorem alertMatch_head (t : List Char) (r : List Char × Nat)
    (h : alertMatch t = some r) : ∃ s, t = '@' :: s := by
  by_cases hp : ("@alert ".toList).isPrefixOf t = true
  · obtain ⟨u, hu⟩ := List.isPrefixOf_iff_prefix.mp hp
    exact ⟨"alert ".toList ++ u, by rw [← hu]; rfl⟩
  · rw [alertMatch, if_neg hp] at h
    exact absurd h (by simp)

theorem alertMatch_at (ty body post : List Char) (hty : ty ≠ [])
    (htyw : ∀ c ∈ ty, isWordChar c = true) (hbody : '@' ∉ body) :
    alertMatch ("@alert ".toList ++ (ty ++ '\n' :: (body ++ ("@endalert".toList ++ post))))
      = some ("<div class=\"alert ".toList
            ++ (if ty ∈ alertAllowed then ty else "info".toList)
            ++ "\">".toList ++ pyStrip body ++ "</div>".toList,
          ("@alert ".toList).length + ty.length + 1 + body.length
            + ("@endalert".toList).length) := by
  have hpre : ("@alert ".toList).isPrefixOf
      ("@alert ".toList ++ (ty ++ '\n' :: (body ++ ("@endalert".toList ++ post)))) = true :=
    List.isPrefixOf_iff_prefix.mpr (List.prefix_append _ _)
  rw [alertMatch, if_pos hpre]
  simp only [List.drop_left]
  rw [takeWhile_middle isWordChar ty '\n' _ htyw (by decide), List.drop_left]
  rw [if_neg hty]
  have hsp := splitFirst_eq ("@endalert".toList) body post (by simp)
    (no_occ_of_head_notMem '@' ("@endalert".toList) body ("@endalert".toList ++ post)
      ⟨"endalert".toList, rfl⟩ hbody)
  simp only [hsp, pyStrip_of_no_ws ty (fun c hc => word_not_ws c (htyw c hc))]

theorem alertStage_split (pre ty body post : List Char) (hpre : '@' ∉ pre)
    (hty : ty ≠ []) (htyw : ∀ c ∈ ty, isWordChar c = true) (hbody : '@' ∉ body) :
    alertStage (pre ++ ("@alert ".toList ++ (ty ++ '\n' :: (body ++ ("@endalert".toList ++ post)))))
      = pre ++ "<div class=\"alert ".toList
          ++ (if ty ∈ alertAllowed then ty else "info".toList)
          ++ "\">".toList ++ pyStrip body ++ "</div>".toList ++ alertStage post := by
  unfold alertStage
  rw [scanRewrite_append_of_no_match alertMatch pre _
    (matcher_none_of_head alertMatch '@' (fun t r h => alertMatch_head t r h) pre _ hpre)]
  rw [scanRewrite_match alertMatch _ _ _ (alertMatch_at ty body post hty htyw hbody)
    (by omega) (by simp)]
  have hdrop :
      List.drop (("@alert ".toList).length + ty.length + 1 + body.length
          + ("@endalert".toList).length)
        ("@alert ".toList ++ (ty ++ '\n' :: (body ++ ("@endalert".toList ++ post)))) = post := by
    have hsplit : "@alert ".toList ++ (ty ++ '\n' :: (body ++ ("@endalert".toList ++ post)))
        = ("@alert ".toList ++ ty ++ '\n' :: body ++ "@endalert".toList) ++ post := by
      simp [List.append_assoc]
    rw [hsplit, List.drop_left']
    simp only [List.length_append, List.length_cons]
    omega
  rw [hdrop]
  simp [List.append_assoc]

/-- C7: for every alert block `@alert TYPE ... @endalert` (type a nonempty
word, context and body free of further `@`-directives), the rendered container
carries the generic `alert` class together with the type class when the type
is one of info, warning, error, success, and with the class `info` otherwise;
the content is stripped before being wrapped. -/
theorem C7_alert_fallback (pre ty body post : List Char) (hpre : '@' ∉ pre)
    (hty : ty ≠ []) (htyw : ∀ c ∈ ty, isWordChar c = true) (hbody : '@' ∉ body) :
    (ty ∈ alertAllowed →
      alertStage (pre ++ ("@alert ".toList ++ (ty ++ '\n' :: (body ++ ("@endalert".toList ++ post)))))
        = pre ++ "<div class=\"alert ".toList ++ ty ++ "\">".toList
            ++ pyStrip body ++ "</div>".toList ++ alertStage post)
    ∧ (ty ∉ alertAllowed →
      alertStage (pre ++ ("@alert ".toList ++ (ty ++ '\n' :: (body ++ ("@endalert".toList ++ post)))))
        = pre ++ "<div class=\"alert ".toList ++ "info".toList ++ "\">".toList
            ++ pyStrip body ++ "</div>".toList ++ alertStage post) := by
  constructor
  · intro hmem
    rw [alertStage_split pre ty body post hpre hty htyw hbody, if_pos hmem]
  · intro hmem
    rw [alertStage_split pre ty body post hpre hty htyw hbody, if_neg hmem]

/-- Witness for C7 at a concrete input: the disallowed type `danger` renders
with class `info`, and the allowed type `success` renders with its own class. -/
theorem C7_alert_fallback_witness :
    (('@' ∉ "x\n".toList) ∧ "danger".toList ≠ [] ∧ (∀ c ∈ "danger".toList, isWordChar c = true)
      ∧ '@' ∉ " watch out ".toList ∧ "danger".toList ∉ alertAllowed)
    ∧ alertStage ("x\n".toList ++ ("@alert ".toList ++ ("danger".toList ++ '\n' ::
          (" watch out ".toList ++ ("@endalert".toList ++ "\ny".toList)))))
        = "x\n".toList ++ "<div class=\"alert ".toList ++ "info".toList ++ "\">".toList
            ++ pyStrip " watch out ".toList ++ "</div>".toList ++ alertStage "\ny".toList := by
  refine ⟨⟨by decide, by decide, by decide, by decide, by decide⟩, ?_⟩
  exact (C7_alert_fallback "x\n".toList "danger".toList " watch out ".toList "\ny".toList
    (by decide) (by decide) (by decide) (by decide)).2 (by decide)

end Ldoc

namespace Ldoc

/-! ### C1: conditional blocks -/

theorem not_infix_of_head_notMem (h0 : Char) (pat b : List Char)
    (hpat : ∃ ps, pat = h0 :: ps) (hmem : h0 ∉ b) : ¬ pat <:+: b := by
  rintro ⟨u, v, huv⟩
  obtain ⟨ps, rfl⟩ := hpat
  exact hmem (huv ▸ (by simp : h0 ∈ u ++ (h0 :: ps) ++ v))

/-- Associativity-adjusted form of `no_occ_of_head_notMem`, matching the side
condition of `replaceAll_single`. -/
theorem no_occ_assoc (h0 : Char) (pat a b : List Char)
    (hpat : ∃ ps, pat = h0 :: ps) (hmem : h0 ∉ a) :
    ∀ s, s <:+ a → s ≠ [] → ¬ pat <+: (s ++ pat ++ b) := by
  intro s hs hne hp
  exact no_occ_of_head_notMem h0 pat a (pat ++ b) hpat hmem s hs hne
    (by simpa [List.append_assoc] using hp)

theorem condMatch_head (t : List Char) (r : (List Char × List Char × List Char) × Nat)
    (h : condMatch t = some r) : ∃ s, t = '@' :: s := by
  by_cases hp : ("@if ".toList).isPrefixOf t = true
  · obtain ⟨u, hu⟩ := List.isPrefixOf_iff_prefix.mp hp
    exact ⟨"if ".toList ++ u, by rw [← hu]; rfl⟩
  · rw [condMatch, if_neg hp] at h
    exact absurd h (by simp)

theorem condMatch_at (var value block post : List Char) (hvar : var ≠ [])
    (hvarw : ∀ c ∈ var, isWordChar c = true) (hvne : value ≠ [])
    (hvnl : '\n' ∉ value) (hblk : '@' ∉ block) :
    condMatch ("@if ".toList ++ (var ++ '=' :: (value ++ '\n' :: (block ++ ("@endif".toList ++ post)))))
      = some ((var, value, block),
          ("@if ".toList).length + var.length + 1 + value.length + 1 + block.length
            + ("@endif".toList).length) := by
  cases value with
  | nil => exact absurd rfl hvne
  | cons v0 vrest =>
    have hpre : ("@if ".toList).isPrefixOf
        ("@if ".toList ++ (var ++ '=' :: ((v0 :: vrest) ++ '\n' :: (block ++ ("@endif".toList ++ post))))) = true :=
      List.isPrefixOf_iff_prefix.mpr (List.prefix_append _ _)
    rw [condMatch, if_pos hpre]
    simp only [List.drop_left]
    rw [takeWhile_middle isWordChar var '=' _ hvarw (by decide), List.drop_left]
    rw [if_neg hvar]
    have hnl0 : v0 ≠ '\n' := fun hh => hvnl (hh ▸ List.mem_cons_self v0 vrest)
    have hnlr : '\n' ∉ vrest := fun hh => hvnl (List.mem_cons_of_mem v0 hh)
    have hsp1 : splitFirst ['\n'] (vrest ++ ('\n' :: (block ++ ("@endif".toList ++ post))))
        = some (vrest, block ++ ("@endif".toList ++ post)) := by
      have := splitFirst_eq ['\n'] vrest (block ++ ("@endif".toList ++ post)) (by simp)
        (no_occ_of_head_notMem '\n' ['\n'] vrest _ ⟨[], rfl⟩ hnlr)
      simpa using this
    have hsp2 : splitFirst ("@endif".toList) (block ++ ("@endif".toList ++ post))
        = some (block, post) :=
      splitFirst_eq ("@endif".toList) block post (by simp)
        (no_occ_of_head_notMem '@' ("@endif".toList) block _ ⟨"endif".toList, rfl⟩ hblk)
    simp only [List.cons_append, hsp1, hsp2, List.length_cons]

theorem condMatch_drop (var value block post : List Char) :
    List.drop (("@if ".toList).length + var.length + 1 + value.length + 1 + block.length
        + ("@endif".toList).length)
      ("@if ".toList ++ (var ++ '=' :: (value ++ '\n' :: (block ++ ("@endif".toList ++ post)))))
      = post := by
  have hsplit : "@if ".toList ++ (var ++ '=' :: (value ++ '\n' :: (block ++ ("@endif".toList ++ post))))
      = ("@if ".toList ++ var ++ '=' :: value ++ '\n' :: block ++ "@endif".toList) ++ post := by
    simp [List.append_assoc]
  rw [hsplit, List.drop_left']
  simp only [List.length_append, List.length_cons]
  omega

theorem condGroup0_eq (var value block : List Char) :
    condGroup0 (var, value, block)
      = "@if ".toList ++ (var ++ '=' :: (value ++ '\n' :: (block ++ "@endif".toList))) := by
  simp [condGroup0, List.append_assoc]

theorem condStage_split (platform : Option (List Char))
    (pre var value block post : List Char) (hpe : '@' ∉ pre) (hvar : var ≠ [])
    (hvarw : ∀ c ∈ var, isWordChar c = true) (hvne : value ≠ [])
    (hvnl : '\n' ∉ value) (hblk : '@' ∉ block) (hpo : '@' ∉ post) :
    condStage platform
        (pre ++ ("@if ".toList ++ (var ++ '=' :: (value ++ '\n' :: (block ++ ("@endif".toList ++ post))))))
      = pre ++ (if platformTruthy platform ∧ var = "PLATFORM".toList ∧ platform = some value
          then block else []) ++ post := by
  have hfind : scanFindAll condMatch
      (pre ++ ("@if ".toList ++ (var ++ '=' :: (value ++ '\n' :: (block ++ ("@endif".toList ++ post))))))
      = [(var, value, block)] := by
    rw [scanFindAll_append_of_no_match condMatch pre _
      (matcher_none_of_head condMatch '@' (fun t r h => condMatch_head t r h) pre _ hpe)]
    rw [scanFindAll_match condMatch _ _ _ (condMatch_at var value block post hvar hvarw hvne hvnl hblk)
      (by omega) (by simp)]
    rw [condMatch_drop var value block post]
    rw [scanFindAll_of_no_match condMatch post
      (matcher_none_of_head_suffix condMatch '@' (fun t r h => condMatch_head t r h) post hpo)]
  have hdoc : pre ++ ("@if ".toList ++ (var ++ '=' :: (value ++ '\n' :: (block ++ ("@endif".toList ++ post)))))
      = pre ++ condGroup0 (var, value, block) ++ post := by
    rw [condGroup0_eq]
    simp [List.append_assoc]
  have hg0head : ∃ ps, condGroup0 (var, value, block) = '@' :: ps := by
    rw [condGroup0_eq]
    exact ⟨_, rfl⟩
  have hrepl : ∀ rep, replaceAll (condGroup0 (var, value, block)) rep
      (pre ++ ("@if ".toList ++ (var ++ '=' :: (value ++ '\n' :: (block ++ ("@endif".toList ++ post))))))
      = pre ++ rep ++ post := by
    intro rep
    rw [hdoc]
    exact replaceAll_single _ rep pre post (by rw [condGroup0_eq]; simp)
      (no_occ_assoc '@' _ pre post hg0head hpe)
      (not_infix_of_head_notMem '@' _ post hg0head hpo)
  unfold condStage
  rw [hfind]
  simp only [List.foldl_cons, List.foldl_nil]
  by_cases hguard : platformTruthy platform ∧ var = "PLATFORM".toList ∧ platform = some value
  · rw [if_pos hguard, if_pos hguard, hrepl block]
  · rw [if_neg hguard, if_neg hguard, hrepl []]

end Ldoc

namespace Ldoc

/-- C1: for a document containing a block `@if VAR=VALUE ... @endif` (word
variable name, one-line value, context and body free of further `@`
directives): when a truthy platform is supplied, VAR is PLATFORM and the
platform equals VALUE, the whole directive is replaced by just the body;
in every other case (platform differs, no or empty platform, or VAR is any
name other than PLATFORM) the whole directive is replaced with nothing. -/
theorem C1_conditional (platform : Option (List Char))
    (pre var value block post : List Char) (hpe : '@' ∉ pre) (hvar : var ≠ [])
    (hvarw : ∀ c ∈ var, isWordChar c = true) (hvne : value ≠ [])
    (hvnl : '\n' ∉ value) (hblk : '@' ∉ block) (hpo : '@' ∉ post) :
    ((platformTruthy platform = true ∧ var = "PLATFORM".toList ∧ platform = some value) →
      condStage platform
          (pre ++ ("@if ".toList ++ (var ++ '=' :: (value ++ '\n' :: (block ++ ("@endif".toList ++ post))))))
        = pre ++ block ++ post)
    ∧ (¬ (platformTruthy platform = true ∧ var = "PLATFORM".toList ∧ platform = some value) →
      condStage platform
          (pre ++ ("@if ".toList ++ (var ++ '=' :: (value ++ '\n' :: (block ++ ("@endif".toList ++ post))))))
        = pre ++ post) := by
  have hmain := condStage_split platform pre var value block post hpe hvar hvarw hvne hvnl hblk hpo
  constructor
  · intro hguard
    rw [hmain, if_pos ⟨hguard.1, hguard.2.1, hguard.2.2⟩]
  · intro hguard
    rw [hmain, if_neg (by
      rintro ⟨hg1, hg2, hg3⟩
      exact hguard ⟨hg1, hg2, hg3⟩)]
    simp

/-- Witness for C1 at concrete inputs: platform `linux` keeps the body of a
`PLATFORM=linux` block; platform `mac`, no platform, and a non-PLATFORM
variable each erase the block. -/
theorem C1_conditional_witness :
    (('@' ∉ "A\n".toList) ∧ "PLATFORM".toList ≠ []
      ∧ (∀ c ∈ "PLATFORM".toList, isWordChar c = true) ∧ "linux".toList ≠ []
      ∧ '\n' ∉ "linux".toList ∧ '@' ∉ "BODY\n".toList ∧ '@' ∉ "\nZ".toList)
    ∧ condStage (some "linux".toList)
        ("A\n".toList ++ ("@if ".toList ++ ("PLATFORM".toList ++ '=' ::
          ("linux".toList ++ '\n' :: ("BODY\n".toList ++ ("@endif".toList ++ "\nZ".toList))))))
        = "A\n".toList ++ "BODY\n".toList ++ "\nZ".toList
    ∧ condStage (some "mac".toList)
        ("A\n".toList ++ ("@if ".toList ++ ("PLATFORM".toList ++ '=' ::
          ("linux".toList ++ '\n' :: ("BODY\n".toList ++ ("@endif".toList ++ "\nZ".toList))))))
        = "A\n".toList ++ "\nZ".toList
    ∧ condStage none
        ("A\n".toList ++ ("@if ".toList ++ ("PLATFORM".toList ++ '=' ::
          ("linux".toList ++ '\n' :: ("BODY\n".toList ++ ("@endif".toList ++ "\nZ".toList))))))
        = "A\n".toList ++ "\nZ".toList
    ∧ condStage (some "linux".toList)
        ("A\n".toList ++ ("@if ".toList ++ ("OTHER".toList ++ '=' ::
          ("linux".toList ++ '\n' :: ("BODY\n".toList ++ ("@endif".toList ++ "\nZ".toList))))))
        = "A\n".toList ++ "\nZ".toList := by
  refine ⟨⟨by decide, by decide, by decide, by decide, by decide, by decide, by decide⟩,
    ?_, ?_, ?_, ?_⟩
  · exact (C1_conditional (some "linux".toList) "A\n".toList "PLATFORM".toList "linux".toList
      "BODY\n".toList "\nZ".toList (by decide) (by decide) (by decide) (by decide) (by decide)
      (by decide) (by decide)).1 ⟨by decide, rfl, rfl⟩
  · exact (C1_conditional (some "mac".toList) "A\n".toList "PLATFORM".toList "linux".toList
      "BODY\n".toList "\nZ".toList (by decide) (by decide) (by decide) (by decide) (by decide)
      (by decide) (by decide)).2 (by decide)
  · exact (C1_conditional none "A\n".toList "PLATFORM".toList "linux".toList
      "BODY\n".toList "\nZ".toList (by decide) (by decide) (by decide) (by decide) (by decide)
      (by decide) (by decide)).2 (by decide)
  · exact (C1_conditional (some "linux".toList) "A\n".toList "OTHER".toList "linux".toList
      "BODY\n".toList "\nZ".toList (by decide) (by decide) (by decide) (by decide) (by decide)
      (by decide) (by decide)).2 (by decide)

end Ldoc

namespace Ldoc

/-! ### C5: title extraction -/

theorem titleMatch_isPrefixOf (t : List Char) (r : List Char × Nat)
    (h : titleMatch t = some r) : ("@title:".toList) <+: t := by
  by_cases hp : ("@title:".toList).isPrefixOf t = true
  · exact List.isPrefixOf_iff_prefix.mp hp
  · rw [titleMatch, if_neg hp] at h
    exact absurd h (by simp)

theorem titleMatch_head (t : List Char) (r : List Char × Nat)
    (h : titleMatch t = some r) : ∃ s, t = '@' :: s := by
  obtain ⟨u, hu⟩ := titleMatch_isPrefixOf t r h
  exact ⟨"title:".toList ++ u, by rw [← hu]; rfl⟩

theorem matcher_cons_none_of_head {G : Type} (m : List Char → Option (G × Nat))
    (h0 : Char) (hm : ∀ t r, m t = some r → ∃ s, t = h0 :: s)
    (c : Char) (cs : List Char) (hc : c ≠ h0) : m (c :: cs) = none := by
  rcases hr : m (c :: cs) with _ | r
  · rfl
  · obtain ⟨s, hs⟩ := hm _ _ hr
    exact absurd (List.cons.injEq _ _ _ _ ▸ hs).1 hc

theorem titleMatch_at (t0 : Char) (t1 rest : List Char) (h0 : isPyWS t0 = false)
    (hnl : '\n' ∉ (t0 :: t1)) :
    titleMatch ("@title:".toList ++ ' ' :: ((t0 :: t1) ++ '\n' :: rest))
      = some (t0 :: t1, ("@title:".toList).length + 1 + (t0 :: t1).length) := by
  have hpre : ("@title:".toList).isPrefixOf
      ("@title:".toList ++ ' ' :: ((t0 :: t1) ++ '\n' :: rest)) = true :=
    List.isPrefixOf_iff_prefix.mpr (List.prefix_append _ _)
  rw [titleMatch, if_pos hpre]
  simp only [List.drop_left]
  rw [List.takeWhile_cons_of_pos (by decide : isPyWS ' ' = true)]
  rw [List.cons_append, List.takeWhile_cons_of_neg (by simp [h0])]
  simp only [List.length_cons, List.length_nil, List.drop_succ_cons, List.drop_zero]
  rw [if_pos (by simp)]
  rw [← List.cons_append,
    takeWhile_middle (fun c => c != '\n') (t0 :: t1) '\n' rest
      (fun x hx => by
        simp only [bne_iff_ne, ne_eq, decide_eq_true_eq]
        exact fun hh => hnl (hh ▸ hx))
      (by decide)]
  simp

/-- The deletion matcher used by the `re.sub` on line 31. -/
theorem titleDel_at (t0 : Char) (t1 rest : List Char) (h0 : isPyWS t0 = false)
    (hnl : '\n' ∉ (t0 :: t1)) :
    (fun s => (titleMatch s).map (fun gn => (([] : List Char), gn.2)))
        ("@title:".toList ++ ' ' :: ((t0 :: t1) ++ '\n' :: rest))
      = some ([], ("@title:".toList).length + 1 + (t0 :: t1).length) := by
  simp only [titleMatch_at t0 t1 rest h0 hnl]
  rfl

theorem titleRegion_drop (t rest : List Char) :
    List.drop (("@title:".toList).length + 1 + t.length)
      ("@title:".toList ++ ' ' :: (t ++ '\n' :: rest)) = '\n' :: rest := by
  have hsplit : "@title:".toList ++ ' ' :: (t ++ '\n' :: rest)
      = ("@title:".toList ++ ' ' :: t) ++ '\n' :: rest := by
    simp
  rw [hsplit, List.drop_left']
  simp only [List.length_append, List.length_cons]
  omega

/-- C5, part 1 of the development: on a document with two title lines, the
first supplies the title and both are deleted (each line is left empty, its
newline remaining). -/
theorem extractTitle_two (pre mid post t1 t2 : List Char)
    (hpe : '@' ∉ pre) (hmid : '@' ∉ mid) (hpo : '@' ∉ post)
    (h1ne : t1 ≠ []) (h1w : isPyWS t1.headI = false) (h1nl : '\n' ∉ t1)
    (h2ne : t2 ≠ []) (h2w : isPyWS t2.headI = false) (h2nl : '\n' ∉ t2) :
    extractTitle (pre ++ ("@title:".toList ++ ' ' :: (t1 ++ '\n' ::
        (mid ++ ("@title:".toList ++ ' ' :: (t2 ++ '\n' :: post))))))
      = (pre ++ '\n' :: (mid ++ '\n' :: post), t1) := by
  cases t1 with
  | nil => exact absurd rfl h1ne
  | cons a1 b1 =>
  cases t2 with
  | nil => exact absurd rfl h2ne
  | cons a2 b2 =>
  simp only [List.headI] at h1w h2w
  have hdel := fun rest => titleDel_at a1 b1 rest h1w h1nl
  have hdel2 := fun rest => titleDel_at a2 b2 rest h2w h2nl
  have hhead : ∀ t r, (fun s => (titleMatch s).map (fun gn => (([] : List Char), gn.2))) t = some r
      → ∃ s, t = '@' :: s := by
    intro t r h
    simp only [Option.map_eq_some'] at h
    obtain ⟨gn, hgn, _⟩ := h
    exact titleMatch_head t gn hgn
  refine Prod.ext ?_ ?_
  · show scanRewrite (fun s => (titleMatch s).map (fun gn => (([] : List Char), gn.2))) _ = _
    rw [scanRewrite_append_of_no_match _ pre _
      (matcher_none_of_head _ '@' hhead pre _ hpe)]
    rw [scanRewrite_match _ _ _ _ (hdel _) (by omega) (by simp), titleRegion_drop]
    rw [scanRewrite_cons_none _ '\n' _
      (matcher_cons_none_of_head _ '@' hhead '\n' _ (by decide))]
    rw [scanRewrite_append_of_no_match _ mid _
      (matcher_none_of_head _ '@' hhead mid _ hmid)]
    rw [scanRewrite_match _ _ _ _ (hdel2 _) (by omega) (by simp), titleRegion_drop]
    rw [scanRewrite_cons_none _ '\n' _
      (matcher_cons_none_of_head _ '@' hhead '\n' _ (by decide))]
    rw [scanRewrite_of_no_match _ post
      (matcher_none_of_head_suffix _ '@' hhead post hpo)]
    simp
  · show (match scanFindFirst titleMatch _ with
      | some g => g
      | none => "Documentation".toList) = _
    rw [scanFindFirst_append_of_no_match titleMatch pre _
      (matcher_none_of_head titleMatch '@' (fun t r h => titleMatch_head t r h) pre _ hpe)]
    rw [scanFindFirst_match titleMatch _ _ _ (titleMatch_at a1 b1 _ h1w h1nl) (by simp)]

/-- C5, part 2: with no `@title:` occurrence the buffer is unchanged and the
default title applies. -/
theorem extractTitle_default (d : List Char) (h : ¬ ("@title:".toList) <:+: d) :
    extractTitle d = (d, "Documentation".toList) := by
  have hnone : ∀ s, s <:+ d → s ≠ [] → titleMatch s = none := by
    intro s hs hne
    rcases hr : titleMatch s with _ | r
    · rfl
    · exact absurd ((titleMatch_isPrefixOf s r hr).isInfix.trans hs.isInfix) h
  unfold extractTitle
  rw [scanFindFirst_of_no_match titleMatch d hnone]
  rw [scanRewrite_of_no_match _ d (fun s hs hne => by rw [hnone s hs hne]; rfl)]

/-- C5: the returned title is the text of the first `@title: <text>` line;
all such lines (not only the first) have their directive text removed from
the buffer; and with no `@title:` occurrence the default `Documentation`
applies with the buffer untouched and no failure. -/
theorem C5_title (pre mid post t1 t2 : List Char)
    (hpe : '@' ∉ pre) (hmid : '@' ∉ mid) (hpo : '@' ∉ post)
    (h1ne : t1 ≠ []) (h1w : isPyWS t1.headI = false) (h1nl : '\n' ∉ t1)
    (h2ne : t2 ≠ []) (h2w : isPyWS t2.headI = false) (h2nl : '\n' ∉ t2) :
    extractTitle (pre ++ ("@title:".toList ++ ' ' :: (t1 ++ '\n' ::
        (mid ++ ("@title:".toList ++ ' ' :: (t2 ++ '\n' :: post))))))
      = (pre ++ '\n' :: (mid ++ '\n' :: post), t1)
    ∧ (∀ d, ¬ ("@title:".toList) <:+: d → extractTitle d = (d, "Documentation".toList)) :=
  ⟨extractTitle_two pre mid post t1 t2 hpe hmid hpo h1ne h1w h1nl h2ne h2w h2nl,
    extractTitle_default⟩

/-- Witness for C5 at a concrete input: of two title lines the first wins,
both are stripped; a directive-free document keeps the default title. -/
theorem C5_title_witness :
    (('@' ∉ "a\n".toList) ∧ '@' ∉ "b\n".toList ∧ '@' ∉ "c".toList
      ∧ "My Doc".toList ≠ [] ∧ isPyWS ("My Doc".toList).headI = false
      ∧ '\n' ∉ "My Doc".toList ∧ "Two".toList ≠ []
      ∧ isPyWS ("Two".toList).headI = false ∧ '\n' ∉ "Two".toList
      ∧ ¬ ("@title:".toList) <:+: "plain text".toList)
    ∧ extractTitle ("a\n".toList ++ ("@title:".toList ++ ' ' :: ("My Doc".toList ++ '\n' ::
          ("b\n".toList ++ ("@title:".toList ++ ' ' :: ("Two".toList ++ '\n' :: "c".toList))))))
        = ("a\n".toList ++ '\n' :: ("b\n".toList ++ '\n' :: "c".toList), "My Doc".toList)
    ∧ extractTitle "plain text".toList = ("plain text".toList, "Documentation".toList) := by
  refine ⟨⟨by decide, by decide, by decide, by decide, by decide, by decide, by decide,
    by decide, by decide, by decide⟩, ?_, ?_⟩
  · exact (C5_title "a\n".toList "b\n".toList "c".toList "My Doc".toList "Two".toList
      (by decide) (by decide) (by decide) (by decide) (by decide) (by decide)
      (by decide) (by decide) (by decide)).1
  · exact (C5_title "a\n".toList "b\n".toList "c".toList "My Doc".toList "Two".toList
      (by decide) (by decide) (by decide) (by decide) (by decide) (by decide)
      (by decide) (by decide) (by decide)).2 "plain text".toList (by decide)

end Ldoc

namespace Ldoc

/-! ### C6: variable substitution order -/

/-- C6 counterexample data: in `@var A=x @B` then `@var B=y` then a body
`@A`, the table iterates A before B, so the `@B` introduced by substituting A
IS afterwards replaced by the value of B: the claim that such introduced
tokens are never replaced fails on this input. -/
theorem C6_counterexample :
    pyDictGet "A".toList (collectVars [] "@var A=x @B\n@var B=y\n@A".toList)
        = some "x @B".toList
    ∧ ("@B".toList) <:+: "x @B".toList
    ∧ substVars (collectVars [] "@var A=x @B\n@var B=y\n@A".toList)
        (stripVarDecls "@var A=x @B\n@var B=y\n@A".toList) = "\n\nx y".toList
    ∧ ¬ (("@B".toList) <:+: substVars (collectVars [] "@var A=x @B\n@var B=y\n@A".toList)
        (stripVarDecls "@var A=x @B\n@var B=y\n@A".toList)) :=
  ⟨by decide, by decide, by decide, by decide⟩

/-- C6 amended: whether a token `@B` introduced by substituting the value of A
is itself replaced depends on the iteration (insertion) order of the table:
with A before B it is replaced by the value of B, with B before A it survives
verbatim (each value is scanned only by the passes that run after it was
inserted into the buffer). -/
theorem C6_subst_order (A B vB u w pre post : List Char)
    (hAat : '@' ∉ A) (hpe : '@' ∉ pre) (hpo : '@' ∉ post)
    (hu : '@' ∉ u) (hw : '@' ∉ w)
    (hAB : ¬ (B <+: (A ++ post))) :
    substVars [(A, u ++ '@' :: B ++ w), (B, vB)] (pre ++ '@' :: (A ++ post))
      = pre ++ u ++ vB ++ w ++ post
    ∧ substVars [(B, vB), (A, u ++ '@' :: B ++ w)] (pre ++ '@' :: (A ++ post))
      = pre ++ u ++ '@' :: B ++ w ++ post := by
  have hdoc : pre ++ '@' :: (A ++ post) = pre ++ ('@' :: A) ++ post := by simp
  have hstepA : replaceAll ('@' :: A) (u ++ '@' :: B ++ w) (pre ++ '@' :: (A ++ post))
      = pre ++ (u ++ '@' :: B ++ w) ++ post := by
    rw [hdoc]
    exact replaceAll_single _ _ pre post (by simp)
      (no_occ_assoc '@' _ pre _ ⟨A, rfl⟩ hpe)
      (not_infix_of_head_notMem '@' _ post ⟨A, rfl⟩ hpo)
  have hstepB : replaceAll ('@' :: B) vB (pre ++ (u ++ '@' :: B ++ w) ++ post)
      = pre ++ u ++ vB ++ w ++ post := by
    have hre : pre ++ (u ++ '@' :: B ++ w) ++ post = (pre ++ u) ++ ('@' :: B) ++ (w ++ post) := by
      simp [List.append_assoc]
    rw [hre]
    rw [replaceAll_single _ _ (pre ++ u) (w ++ post) (by simp)
      (no_occ_assoc '@' _ (pre ++ u) _ ⟨B, rfl⟩
        (by simp only [List.mem_append]; tauto))
      (not_infix_of_head_notMem '@' _ (w ++ post) ⟨B, rfl⟩
        (by simp only [List.mem_append]; tauto))]
    simp [List.append_assoc]
  have hskipB : replaceAll ('@' :: B) vB (pre ++ '@' :: (A ++ post))
      = pre ++ '@' :: (A ++ post) := by
    rw [replaceAll_append_of_no_occ _ _ pre _
      (no_occ_of_head_notMem '@' _ pre _ ⟨B, rfl⟩ hpe)]
    rw [replaceAll_cons_neg _ _ '@' (A ++ post) (by
      rintro ⟨_, hp⟩
      have := List.cons_prefix_cons.mp (List.isPrefixOf_iff_prefix.mp hp)
      exact hAB this.2)]
    rw [ replaceAll_of_not_infix _ _ (A ++ post)
      (not_infix_of_head_notMem '@' _ (A ++ post) ⟨B, rfl⟩
        (by simp [List.mem_append]; tauto))]
  constructor
  · show replaceAll ('@' :: B) vB (replaceAll ('@' :: A) (u ++ '@' :: B ++ w)
      (pre ++ '@' :: (A ++ post))) = _
    rw [hstepA, hstepB]
  · show replaceAll ('@' :: A) (u ++ '@' :: B ++ w) (replaceAll ('@' :: B) vB
      (pre ++ '@' :: (A ++ post))) = _
    rw [hskipB, hstepA]
    simp [List.append_assoc]

/-- Witness for the amended C6 at concrete inputs. -/
theorem C6_subst_order_witness :
    (('@' ∉ "A".toList) ∧ '@' ∉ "p ".toList ∧ '@' ∉ " q".toList ∧ '@' ∉ "x ".toList
      ∧ '@' ∉ "".toList ∧ ¬ ("B".toList <+: ("A".toList ++ " q".toList)))
    ∧ substVars [("A".toList, "x ".toList ++ '@' :: "B".toList ++ "".toList), ("B".toList, "y".toList)]
        ("p ".toList ++ '@' :: ("A".toList ++ " q".toList))
      = "p ".toList ++ "x ".toList ++ "y".toList ++ "".toList ++ " q".toList
    ∧ substVars [("B".toList, "y".toList), ("A".toList, "x ".toList ++ '@' :: "B".toList ++ "".toList)]
        ("p ".toList ++ '@' :: ("A".toList ++ " q".toList))
      = "p ".toList ++ "x ".toList ++ '@' :: "B".toList ++ "".toList ++ " q".toList := by
  refine ⟨⟨by decide, by decide, by decide, by decide, by decide, by decide⟩, ?_, ?_⟩
  · exact (C6_subst_order "A".toList "B".toList "y".toList "x ".toList "".toList
      "p ".toList " q".toList (by decide) (by decide) (by decide) (by decide) (by decide)
      (by decide)).1
  · exact (C6_subst_order "A".toList "B".toList "y".toList "x ".toList "".toList
      "p ".toList " q".toList (by decide) (by decide) (by decide) (by decide) (by decide)
      (by decide)).2

/-! ### C9: the caller-supplied variable table -/

theorem pyDictGet_insert (n k v : List Char) (tbl : List (List Char × List Char)) :
    pyDictGet n (pyDictInsert k v tbl)
      = if k = n then some v else pyDictGet n tbl := by
  induction tbl with
  | nil =>
    by_cases hkn : k = n
    · simp [pyDictInsert, pyDictGet, hkn]
    · simp [pyDictInsert, pyDictGet, hkn]
  | cons p rest ih =>
    by_cases hpk : p.1 = k
    · by_cases hkn : k = n
      · simp [pyDictInsert, pyDictGet, hpk, hkn]
      · simp [pyDictInsert, pyDictGet, hpk, hkn]
    · by_cases hpn : p.1 = n
      · have hkn : ¬ k = n := fun hh => hpk (hpn.trans hh.symm)
        have hnk : ¬ n = k := fun hh => hkn hh.symm
        simp [pyDictInsert, pyDictGet, hpk, hpn, hkn, hnk]
      · simp [pyDictInsert, pyDictGet, hpk, hpn, ih]

/-- The value of the last declaration of a name in a declaration list. -/
def lastVal (n : List Char) : List (List Char × List Char) → Option (List Char)
  | [] => none
  | d :: rest =>
    match lastVal n rest with
    | some v => some v
    | none => if d.1 = n then some d.2 else none

theorem foldl_insert_lookup (n : List Char) (ds : List (List Char × List Char))
    (tbl : List (List Char × List Char)) :
    pyDictGet n (ds.foldl (fun d nv => pyDictInsert nv.1 (pyStrip nv.2) d) tbl)
      = match lastVal n ds with
        | some v => some (pyStrip v)
        | none => pyDictGet n tbl := by
  induction ds generalizing tbl with
  | nil => simp [lastVal]
  | cons d rest ih =>
    rw [List.foldl_cons, ih]
    cases hlv : lastVal n rest with
    | some v => simp [lastVal, hlv]
    | none =>
      simp only [hlv]
      rw [pyDictGet_insert]
      simp only [lastVal, hlv]
      by_cases hdn : d.1 = n
      · simp [hdn]
      · simp [hdn]

/-- C9: when the caller passes a non-empty variable table, that very table is
the one the `@var` declarations are recorded into, and the caller observes the
updated table after the call (the last declaration of each name, stripped,
wins); when the caller passes an empty table, a fresh internal one is used and
the caller observes the empty table unchanged. -/
theorem C9_caller_table (fs : List (List Char × List Char)) (base : List Char)
    (varsIn : List (List Char × List Char)) (fuel : Nat) (text r : List Char)
    (hres : resolveIncludes fs base fuel text = some r) :
    (varsIn ≠ [] →
      callerTableAfter fs base varsIn fuel text
          = some (collectVars varsIn (extractTitle r).1)
      ∧ ∀ n v, lastVal n (scanFindAll varMatch (extractTitle r).1) = some v →
          pyDictGet n (collectVars varsIn (extractTitle r).1) = some (pyStrip v))
    ∧ (varsIn = [] → callerTableAfter fs base varsIn fuel text = some varsIn) := by
  constructor
  · intro hne
    constructor
    · unfold callerTableAfter
      rw [hres]
      show (if varsIn = [] then some varsIn
        else some (collectVars varsIn (extractTitle r).1)) = _
      rw [if_neg hne]
    · intro n v hlast
      unfold collectVars
      rw [foldl_insert_lookup, hlast]
  · intro hemp
    unfold callerTableAfter
    rw [hres]
    show (if varsIn = [] then some varsIn
      else some (collectVars varsIn (extractTitle r).1)) = _
    rw [if_pos hemp]

/-- Witness for C9 at concrete inputs: a pre-seeded table receives the new
declaration (visible to the caller); an empty table stays empty. -/
theorem C9_caller_table_witness :
    resolveIncludes [] [] 1 "@var Y=2\nbody".toList = some "@var Y=2\nbody".toList
    ∧ ([("X".toList, "1".toList)] : List (List Char × List Char)) ≠ []
    ∧ callerTableAfter [] [] [("X".toList, "1".toList)] 1 "@var Y=2\nbody".toList
        = some (collectVars [("X".toList, "1".toList)]
            (extractTitle "@var Y=2\nbody".toList).1)
    ∧ lastVal "Y".toList (scanFindAll varMatch (extractTitle "@var Y=2\nbody".toList).1)
        = some "2".toList
    ∧ pyDictGet "Y".toList (collectVars [("X".toList, "1".toList)]
        (extractTitle "@var Y=2\nbody".toList).1) = some (pyStrip "2".toList)
    ∧ callerTableAfter [] [] [] 1 "@var Y=2\nbody".toList = some [] := by
  have h1 := C9_caller_table [] [] [("X".toList, "1".toList)] 1 "@var Y=2\nbody".toList
    "@var Y=2\nbody".toList (by decide)
  have h2 := C9_caller_table [] [] [] 1 "@var Y=2\nbody".toList
    "@var Y=2\nbody".toList (by decide)
  refine ⟨by decide, by decide, (h1.1 (by decide)).1, by decide, ?_, h2.2 rfl⟩
  exact (h1.1 (by decide)).2 "Y".toList "2".toList (by decide)

/-! ### C2: list wrapping -/

/-- Count non-overlapping occurrences of a pattern, scanning left to right. -/
def countOccAux (pat : List Char) : List Char → Nat → Nat
  | [], _ => 0
  | _ :: cs, skip + 1 => countOccAux pat cs skip
  | c :: cs, 0 =>
    if pat ≠ [] ∧ pat.isPrefixOf (c :: cs) then
      1 + countOccAux pat cs (pat.length - 1)
    else
      countOccAux pat cs 0

def countOcc (pat t : List Char) : Nat := countOccAux pat t 0

/-- C2 evaluated at the failing input `- a\n- b\n- [x] done`: the lazy wrap
regex `(<li>.*?</li>)` wraps each plain list item in its own `<ul>` container
(two containers for the adjacent run, not one), and the converted task-list
item, whose tag is `<li class="task-item">`, is not wrapped at all. -/
theorem C2_list_wrap_eval :
    wrapStage (listStage (taskStage "- a\n- b\n- [x] done".toList))
      = ("<ul><li>a</li></ul>\n<ul><li>b</li></ul>\n".toList
          ++ "<li class=\"task-item\"><input type=\"checkbox\" disabled checked> done</li>".toList)
    ∧ countOcc "<ul>".toList (wrapStage (listStage (taskStage "- a\n- b\n- [x] done".toList))) = 2
    ∧ countOcc "<li".toList (wrapStage (listStage (taskStage "- a\n- b\n- [x] done".toList))) = 3 :=
  ⟨by decide, by decide, by decide⟩

end Ldoc

namespace Ldoc

/-! ### C8: TOC anchors versus heading ids -/

theorem ofNat_shift_ne_nl (n : Nat) (h1 : 65 ≤ n) (h2 : n ≤ 90) :
    Char.ofNat (n + 32) ≠ '\n' := by
  interval_cases n <;> decide

theorem toLower_ne_nl (c : Char) (h : c ≠ '\n') : c.toLower ≠ '\n' := by
  simp only [Char.toLower]
  by_cases hc : c.toNat ≥ 65 ∧ c.toNat ≤ 90
  · rw [if_pos hc]
    exact ofNat_shift_ne_nl c.toNat hc.1 hc.2
  · rw [if_neg hc]
    exact h

theorem headingId_no_nl (s : List Char) (h : '\n' ∉ s) : '\n' ∉ headingId s := by
  intro hmem
  unfold headingId at hmem
  rw [List.map_map] at hmem
  obtain ⟨x, hx, hfx⟩ := List.mem_map.mp hmem
  by_cases hsp : x.toLower = ' '
  · simp only [Function.comp, hsp] at hfx
    exact absurd hfx.symm (by decide)
  · simp only [Function.comp, if_neg hsp] at hfx
    exact toLower_ne_nl x (fun hh => h (hh ▸ hx)) hfx

theorem repr_lvl_no_nl (lvl : Nat) (h : lvl = 1 ∨ lvl = 2 ∨ lvl = 3) :
    '\n' ∉ (Nat.repr lvl).toList := by
  rcases h with rfl | rfl | rfl <;> decide

theorem headingLineSub_no_nl (lvl : Nat) (hlvl : lvl = 1 ∨ lvl = 2 ∨ lvl = 3)
    (l : List Char) (h : '\n' ∉ l) : '\n' ∉ headingLineSub lvl l := by
  unfold headingLineSub
  by_cases hc : (List.replicate lvl '#' ++ [' ']).isPrefixOf l
      ∧ (List.replicate lvl '#' ++ [' ']).length < l.length
  · rw [if_pos hc]
    intro hmem
    have hdrop : '\n' ∉ l.drop (List.replicate lvl '#' ++ [' ']).length :=
      fun hh => h (List.mem_of_mem_drop hh)
    have h1 : '\n' ∉ (Nat.repr lvl).toList := repr_lvl_no_nl lvl hlvl
    have h2 : '\n' ∉ headingId (l.drop (List.replicate lvl '#' ++ [' ']).length) :=
      headingId_no_nl _ hdrop
    have l1 : '\n' ∉ "<h".toList := by decide
    have l2 : '\n' ∉ " id=\"".toList := by decide
    have l3 : '\n' ∉ "\">".toList := by decide
    have l4 : '\n' ∉ "</h".toList := by decide
    have l5 : '\n' ∉ ">".toList := by decide
    simp only [List.mem_append] at hmem
    tauto
  · rw [if_neg hc]
    exact h

theorem flatMap_pyLines_of_no_nl (ls : List (List Char))
    (hnl : ∀ l ∈ ls, '\n' ∉ l) : ls.flatMap pyLines = ls := by
  induction ls with
  | nil => rfl
  | cons l rest ih =>
    rw [List.flatMap_cons, pyLines_of_no_nl l (hnl l (List.mem_cons_self l rest)),
      ih (fun x hx => hnl x (List.mem_cons_of_mem l hx))]
    rfl

theorem pyLines_joinNL_of_no_nl (ls : List (List Char)) (hne : ls ≠ [])
    (hnl : ∀ l ∈ ls, '\n' ∉ l) : pyLines (joinNL ls) = ls := by
  rw [pyLines_joinNL_bind ls hne, flatMap_pyLines_of_no_nl ls hnl]

theorem mapLines_of_lines (f : List Char → List Char) (ls : List (List Char))
    (hne : ls ≠ []) (hnl : ∀ l ∈ ls, '\n' ∉ l) :
    mapLines f (joinNL ls) = joinNL (ls.map f) := by
  unfold mapLines
  rw [pyLines_joinNL_of_no_nl ls hne hnl]

theorem headingStage_lines (ls : List (List Char)) (hne : ls ≠ [])
    (hnl : ∀ l ∈ ls, '\n' ∉ l) :
    headingStage (joinNL ls)
      = joinNL (ls.map (fun l => headingLineSub 1 (headingLineSub 2 (headingLineSub 3 l)))) := by
  unfold headingStage
  rw [mapLines_of_lines (headingLineSub 3) ls hne hnl,
    mapLines_of_lines (headingLineSub 2) (ls.map (headingLineSub 3))
      (by simpa using hne)
      (by
        intro l hl
        obtain ⟨x, hx, rfl⟩ := List.mem_map.mp hl
        exact headingLineSub_no_nl 3 (by tauto) x (hnl x hx)),
    mapLines_of_lines (headingLineSub 1) ((ls.map (headingLineSub 3)).map (headingLineSub 2))
      (by simpa using hne)
      (by
        intro l hl
        obtain ⟨x, hx, rfl⟩ := List.mem_map.mp hl
        obtain ⟨y, hy, rfl⟩ := List.mem_map.mp hx
        exact headingLineSub_no_nl 2 (by tauto)
          (headingLineSub 3 y) (headingLineSub_no_nl 3 (by tauto) y (hnl y hy))),
    List.map_map, List.map_map]
  rfl

theorem headingOfLine_at (lvl : Nat) (t : List Char)
    (hlvl : lvl = 1 ∨ lvl = 2 ∨ lvl = 3) (ht : t ≠ []) :
    headingOfLine (List.replicate lvl '#' ++ ' ' :: t) = some (lvl, t) := by
  rcases hlvl with rfl | rfl | rfl <;>
    simp [headingOfLine, List.replicate, List.takeWhile_cons, ht]

theorem heading_sub_chain (lvl : Nat) (t : List Char)
    (hlvl : lvl = 1 ∨ lvl = 2 ∨ lvl = 3) (ht : t ≠ []) :
    headingLineSub 1 (headingLineSub 2 (headingLineSub 3 (List.replicate lvl '#' ++ ' ' :: t)))
      = "<h".toList ++ (Nat.repr lvl).toList ++ " id=\"".toList ++ headingId t
          ++ "\">".toList ++ t ++ "</h".toList ++ (Nat.repr lvl).toList ++ ">".toList := by
  have hpos : 0 < t.length := List.length_pos.mpr ht
  have hlt : ∀ k : Nat, k < k + t.length := fun k => by omega
  rcases hlvl with rfl | rfl | rfl
  · rw [show headingLineSub 3 (List.replicate 1 '#' ++ ' ' :: t)
        = List.replicate 1 '#' ++ ' ' :: t by
      unfold headingLineSub
      rw [if_neg]
      rintro ⟨hp, _⟩
      simp [List.replicate, List.isPrefixOf] at hp]
    rw [show headingLineSub 2 (List.replicate 1 '#' ++ ' ' :: t)
        = List.replicate 1 '#' ++ ' ' :: t by
      unfold headingLineSub
      rw [if_neg]
      rintro ⟨hp, _⟩
      simp [List.replicate, List.isPrefixOf] at hp]
    unfold headingLineSub
    rw [if_pos ⟨by simp [List.replicate, List.isPrefixOf], by
      simp [List.replicate]
      omega⟩]
    simp [List.replicate]
  · rw [show headingLineSub 3 (List.replicate 2 '#' ++ ' ' :: t)
        = List.replicate 2 '#' ++ ' ' :: t by
      unfold headingLineSub
      rw [if_neg]
      rintro ⟨hp, _⟩
      simp [List.replicate, List.isPrefixOf] at hp]
    rw [show headingLineSub 2 (List.replicate 2 '#' ++ ' ' :: t)
        = "<h".toList ++ (Nat.repr 2).toList ++ " id=\"".toList ++ headingId t
            ++ "\">".toList ++ t ++ "</h".toList ++ (Nat.repr 2).toList ++ ">".toList by
      unfold headingLineSub
      rw [if_pos ⟨by simp [List.replicate, List.isPrefixOf], by
        simp [List.replicate]
        omega⟩]
      simp [List.replicate]]
    unfold headingLineSub
    rw [if_neg]
    rintro ⟨hp, _⟩
    rw [show "<h".toList ++ (Nat.repr 2).toList ++ " id=\"".toList ++ headingId t
        ++ "\">".toList ++ t ++ "</h".toList ++ (Nat.repr 2).toList ++ ">".toList
      = '<' :: ("h".toList ++ (Nat.repr 2).toList ++ " id=\"".toList ++ headingId t
        ++ "\">".toList ++ t ++ "</h".toList ++ (Nat.repr 2).toList ++ ">".toList) from by simp] at hp
    simp [List.replicate, List.isPrefixOf] at hp
  · rw [show headingLineSub 3 (List.replicate 3 '#' ++ ' ' :: t)
        = "<h".toList ++ (Nat.repr 3).toList ++ " id=\"".toList ++ headingId t
            ++ "\">".toList ++ t ++ "</h".toList ++ (Nat.repr 3).toList ++ ">".toList by
      unfold headingLineSub
      rw [if_pos ⟨by simp [List.replicate, List.isPrefixOf], by
        simp [List.replicate]
        omega⟩]
      simp [List.replicate]]
    rw [show headingLineSub 2 ("<h".toList ++ (Nat.repr 3).toList ++ " id=\"".toList
        ++ headingId t ++ "\">".toList ++ t ++ "</h".toList ++ (Nat.repr 3).toList
        ++ ">".toList)
      = "<h".toList ++ (Nat.repr 3).toList ++ " id=\"".toList ++ headingId t
          ++ "\">".toList ++ t ++ "</h".toList ++ (Nat.repr 3).toList ++ ">".toList by
      unfold headingLineSub
      rw [if_neg]
      rintro ⟨hp, _⟩
      rw [show "<h".toList ++ (Nat.repr 3).toList ++ " id=\"".toList ++ headingId t
          ++ "\">".toList ++ t ++ "</h".toList ++ (Nat.repr 3).toList ++ ">".toList
        = '<' :: ("h".toList ++ (Nat.repr 3).toList ++ " id=\"".toList ++ headingId t
          ++ "\">".toList ++ t ++ "</h".toList ++ (Nat.repr 3).toList ++ ">".toList) from by simp] at hp
      simp [List.replicate, List.isPrefixOf] at hp]
    unfold headingLineSub
    rw [if_neg]
    rintro ⟨hp, _⟩
    rw [show "<h".toList ++ (Nat.repr 3).toList ++ " id=\"".toList ++ headingId t
        ++ "\">".toList ++ t ++ "</h".toList ++ (Nat.repr 3).toList ++ ">".toList
      = '<' :: ("h".toList ++ (Nat.repr 3).toList ++ " id=\"".toList ++ headingId t
        ++ "\">".toList ++ t ++ "</h".toList ++ (Nat.repr 3).toList ++ ">".toList) from by simp] at hp
    simp [List.replicate, List.isPrefixOf] at hp

end Ldoc

namespace Ldoc

theorem foldl_tocItem_eq (entries : List (Nat × List Char × List Char))
    (init : List Char) :
    entries.foldl (fun acc e => acc ++ tocItem e) init
      = init ++ (entries.map tocItem).flatten := by
  induction entries generalizing init with
  | nil => simp
  | cons e rest ih =>
    rw [List.foldl_cons, ih]
    simp

theorem infix_joinNL_of_mem (ls : List (List Char)) (l : List Char)
    (hnl : ∀ x ∈ ls, '\n' ∉ x) (h : l ∈ ls) : l <:+: joinNL ls := by
  have hne : ls ≠ [] := by rintro rfl; simp at h
  exact infix_of_mem_pyLines l _ (by rw [pyLines_joinNL_of_no_nl ls hne hnl]; exact h)

set_option maxRecDepth 40000 in
/-- C8 counterexample: for the heading line `# A @toc`, the anchor slug placed
in the navigation fragment is `a-@toc`, but the id the Syntax Transformer later
assigns to that heading differs, because the `@toc` placeholder inside the
heading line is replaced by the navigation fragment before the heading is
converted: the transformed buffer contains no id equal to the anchor slug. -/
theorem C8_counterexample :
    tocEntries "# A @toc".toList = [(1, "A @toc".toList, "a-@toc".toList)]
    ∧ ('#' :: "a-@toc".toList) <:+: tocHtml "# A @toc".toList
    ∧ ("<h1 id=\"".toList) <:+: headingStage (tocStage "# A @toc".toList)
    ∧ ¬ (("id=\"a-@toc\"".toList) <:+: headingStage (tocStage "# A @toc".toList)) :=
  ⟨by decide, by decide, by decide, by decide⟩

/-- C8 amended: for every heading line (levels 1-3) in a buffer whose lines
are newline-free and which contains no `@toc` placeholder, the anchor slug the
TOC builder computes and the id the Syntax Transformer later assigns to that
same heading are equal — the two independently written slug computations agree
on every string, and duplicate headings get the same slug in both places by
construction. -/
theorem C8_toc_heading (L1 L2 : List (List Char)) (lvl : Nat) (t : List Char)
    (hlvl : lvl = 1 ∨ lvl = 2 ∨ lvl = 3) (ht : t ≠ [])
    (hnl : ∀ l ∈ L1 ++ (List.replicate lvl '#' ++ ' ' :: t) :: L2, '\n' ∉ l)
    (htoc : ¬ (("@toc".toList) <:+: joinNL (L1 ++ (List.replicate lvl '#' ++ ' ' :: t) :: L2))) :
    (∀ s, tocAnchor s = headingId s)
    ∧ (lvl, t, tocAnchor t)
        ∈ tocEntries (joinNL (L1 ++ (List.replicate lvl '#' ++ ' ' :: t) :: L2))
    ∧ tocItem (lvl, t, tocAnchor t)
        <:+: tocHtml (joinNL (L1 ++ (List.replicate lvl '#' ++ ' ' :: t) :: L2))
    ∧ tocStage (joinNL (L1 ++ (List.replicate lvl '#' ++ ' ' :: t) :: L2))
        = joinNL (L1 ++ (List.replicate lvl '#' ++ ' ' :: t) :: L2)
    ∧ ("<h".toList ++ (Nat.repr lvl).toList ++ " id=\"".toList ++ headingId t
        ++ "\">".toList ++ t ++ "</h".toList ++ (Nat.repr lvl).toList ++ ">".toList)
        <:+: headingStage (tocStage (joinNL (L1 ++ (List.replicate lvl '#' ++ ' ' :: t) :: L2))) := by
  have hmemline : (List.replicate lvl '#' ++ ' ' :: t)
      ∈ L1 ++ (List.replicate lvl '#' ++ ' ' :: t) :: L2 := by simp
  have hne : L1 ++ (List.replicate lvl '#' ++ ' ' :: t) :: L2 ≠ [] := by simp
  have hpy := pyLines_joinNL_of_no_nl _ hne hnl
  have hstage : tocStage (joinNL (L1 ++ (List.replicate lvl '#' ++ ' ' :: t) :: L2))
      = joinNL (L1 ++ (List.replicate lvl '#' ++ ' ' :: t) :: L2) := by
    unfold tocStage
    exact replaceAll_of_not_infix _ _ _ htoc
  have hentry : (lvl, t, tocAnchor t)
      ∈ tocEntries (joinNL (L1 ++ (List.replicate lvl '#' ++ ' ' :: t) :: L2)) := by
    unfold tocEntries
    rw [hpy]
    exact List.mem_filterMap.mpr ⟨List.replicate lvl '#' ++ ' ' :: t, hmemline,
      by rw [headingOfLine_at lvl t hlvl ht]; rfl⟩
  refine ⟨fun s => rfl, hentry, ?_, hstage, ?_⟩
  · have hflat : tocItem (lvl, t, tocAnchor t)
        <:+: ((tocEntries (joinNL (L1 ++ (List.replicate lvl '#' ++ ' ' :: t) :: L2))).map tocItem).flatten :=
      List.infix_of_mem_flatten (List.mem_map.mpr ⟨_, hentry, rfl⟩)
    refine hflat.trans ?_
    unfold tocHtml
    rw [foldl_tocItem_eq]
    exact ⟨"<nav class=".toList ++ [sq] ++ "toc".toList ++ [sq]
        ++ "><h3>Table of Contents</h3><ul>".toList,
      "</ul></nav>".toList, by simp [List.append_assoc]⟩
  · rw [hstage, headingStage_lines _ hne hnl]
    have hchain := heading_sub_chain lvl t hlvl ht
    refine infix_joinNL_of_mem _ _ ?_ ?_
    · intro x hx
      obtain ⟨y, hy, rfl⟩ := List.mem_map.mp hx
      exact headingLineSub_no_nl 1 (by tauto) _
        (headingLineSub_no_nl 2 (by tauto) _
          (headingLineSub_no_nl 3 (by tauto) y (hnl y hy)))
    · rw [← hchain]
      exact List.mem_map.mpr ⟨_, hmemline, rfl⟩

/-- Witness for the amended C8 at a concrete input. -/
theorem C8_toc_heading_witness :
    ((2 = 1 ∨ 2 = 2 ∨ 2 = 3) ∧ "My Heading".toList ≠ []
      ∧ (∀ l ∈ ["intro".toList] ++ (List.replicate 2 '#' ++ ' ' :: "My Heading".toList) :: ["rest".toList], '\n' ∉ l)
      ∧ ¬ (("@toc".toList) <:+: joinNL (["intro".toList]
            ++ (List.replicate 2 '#' ++ ' ' :: "My Heading".toList) :: ["rest".toList])))
    ∧ ((∀ s, tocAnchor s = headingId s)
      ∧ (2, "My Heading".toList, tocAnchor "My Heading".toList)
          ∈ tocEntries (joinNL (["intro".toList]
              ++ (List.replicate 2 '#' ++ ' ' :: "My Heading".toList) :: ["rest".toList]))
      ∧ tocItem (2, "My Heading".toList, tocAnchor "My Heading".toList)
          <:+: tocHtml (joinNL (["intro".toList]
              ++ (List.replicate 2 '#' ++ ' ' :: "My Heading".toList) :: ["rest".toList]))
      ∧ tocStage (joinNL (["intro".toList]
            ++ (List.replicate 2 '#' ++ ' ' :: "My Heading".toList) :: ["rest".toList]))
          = joinNL (["intro".toList]
              ++ (List.replicate 2 '#' ++ ' ' :: "My Heading".toList) :: ["rest".toList])
      ∧ ("<h".toList ++ (Nat.repr 2).toList ++ " id=\"".toList ++ headingId "My Heading".toList
          ++ "\">".toList ++ "My Heading".toList ++ "</h".toList ++ (Nat.repr 2).toList ++ ">".toList)
          <:+: headingStage (tocStage (joinNL (["intro".toList]
              ++ (List.replicate 2 '#' ++ ' ' :: "My Heading".toList) :: ["rest".toList])))) := by
  refine ⟨⟨by decide, by decide, by decide, by decide⟩, ?_⟩
  exact C8_toc_heading ["intro".toList] ["rest".toList] 2 "My Heading".toList
    (by decide) (by decide) (by decide) (by decide)

end Ldoc

namespace Ldoc

/-! ### C4: missing include files -/

theorem includeMatch_head (t : List Char) (r : List Char × Nat)
    (h : includeMatch t = some r) : ∃ s, t = '@' :: s := by
  by_cases hp : ("@include ".toList).isPrefixOf t = true
  · obtain ⟨u, hu⟩ := List.isPrefixOf_iff_prefix.mp hp
    exact ⟨"include ".toList ++ u, by rw [← hu]; rfl⟩
  · rw [includeMatch, if_neg hp] at h
    exact absurd h (by simp)

theorem includeMatch_at (p rest : List Char) (hp : p ≠ []) (hpnl : '\n' ∉ p) :
    includeMatch ("@include ".toList ++ (p ++ '\n' :: rest))
      = some ("@include ".toList ++ p, ("@include ".toList).length + p.length) := by
  have hpre : ("@include ".toList).isPrefixOf ("@include ".toList ++ (p ++ '\n' :: rest)) = true :=
    List.isPrefixOf_iff_prefix.mpr (List.prefix_append _ _)
  rw [includeMatch, if_pos hpre]
  simp only [List.drop_left]
  rw [takeWhile_middle (fun c => c != '\n') p '\n' rest
    (fun x hx => by
      simp only [bne_iff_ne, ne_eq, decide_eq_true_eq]
      exact fun hh => hpnl (hh ▸ hx))
    (by decide)]
  rw [if_neg hp]

theorem errMarker_no_at (p : List Char) (hpat : '@' ∉ p) : '@' ∉ errMarker p := by
  intro hmem
  unfold errMarker at hmem
  have l1 : '@' ∉ "<div class=".toList := by decide
  have l2 : '@' ∉ [sq] := by decide
  have l3 : '@' ∉ "error".toList := by decide
  have l4 : '@' ∉ ">Missing include: ".toList := by decide
  have l5 : '@' ∉ "</div>".toList := by decide
  simp only [List.mem_append] at hmem
  tauto

theorem resolveIncludes_succ_step (fs : List (List Char × List Char)) (base : List Char)
    (n : Nat) (t t2 : List Char) (h : includeStep fs base t = some t2) :
    resolveIncludes fs base (n + 1) t = resolveIncludes fs base n t2 := by
  simp only [resolveIncludes, h]

theorem resolveIncludes_succ_done (fs : List (List Char × List Char)) (base : List Char)
    (n : Nat) (t : List Char) (h : includeStep fs base t = none) :
    resolveIncludes fs base (n + 1) t = some t := by
  simp only [resolveIncludes, h]

theorem includeStep_missing (fs : List (List Char × List Char)) (base : List Char)
    (pre p post : List Char) (hpe : '@' ∉ pre) (hp : p ≠ []) (hpnl : '\n' ∉ p)
    (hstrip : pyStrip p = p) (hpo : '@' ∉ post)
    (hmiss : fsLookup fs (pyJoin base p) = none) :
    includeStep fs base (pre ++ ("@include ".toList ++ (p ++ '\n' :: post)))
      = some (pre ++ (errMarker p ++ '\n' :: post)) := by
  have hfind : scanFindFirst includeMatch (pre ++ ("@include ".toList ++ (p ++ '\n' :: post)))
      = some ("@include ".toList ++ p) := by
    rw [scanFindFirst_append_of_no_match includeMatch pre _
      (matcher_none_of_head includeMatch '@' (fun t r h => includeMatch_head t r h) pre _ hpe)]
    exact scanFindFirst_match includeMatch _ _ _ (includeMatch_at p post hp hpnl) (by simp)
  unfold includeStep
  rw [hfind]
  simp only [List.drop_left, hstrip, hmiss]
  have hdoc : pre ++ ("@include ".toList ++ (p ++ '\n' :: post))
      = pre ++ ("@include ".toList ++ p) ++ ('\n' :: post) := by
    simp [List.append_assoc]
  rw [hdoc, replaceAll_single ("@include ".toList ++ p) (errMarker p) pre ('\n' :: post)
    (by simp)
    (no_occ_assoc '@' ("@include ".toList ++ p) pre _ ⟨"include ".toList ++ p, rfl⟩ hpe)
    (not_infix_of_head_notMem '@' ("@include ".toList ++ p) ('\n' :: post)
      ⟨"include ".toList ++ p, rfl⟩
      (by
        intro hmem
        rcases List.mem_cons.mp hmem with hm | hm
        · exact absurd hm.symm (by decide)
        · exact hpo hm))]
  simp [List.append_assoc]

/-- C4: an `@include <path>` directive whose resolved file does not exist does
not fail the build: the directive is replaced in place with the inline marker
`<div class='error'>Missing include: <path></div>` and the resolver completes
on the rest of the document. -/
theorem C4_missing_include (fs : List (List Char × List Char)) (base : List Char)
    (pre p post : List Char) (fuel : Nat)
    (hpe : '@' ∉ pre) (hp : p ≠ []) (hpnl : '\n' ∉ p) (hpat : '@' ∉ p)
    (hstrip : pyStrip p = p) (hpo : '@' ∉ post)
    (hmiss : fsLookup fs (pyJoin base p) = none) :
    resolveIncludes fs base (fuel + 2) (pre ++ ("@include ".toList ++ (p ++ '\n' :: post)))
      = some (pre ++ (errMarker p ++ '\n' :: post)) := by
  rw [show fuel + 2 = (fuel + 1) + 1 from rfl,
    resolveIncludes_succ_step fs base (fuel + 1) _ _
      (includeStep_missing fs base pre p post hpe hp hpnl hstrip hpo hmiss)]
  have hclean : '@' ∉ pre ++ (errMarker p ++ '\n' :: post) := by
    intro hmem
    simp only [List.mem_append, List.mem_cons] at hmem
    rcases hmem with hm | hm | hm | hm
    · exact hpe hm
    · exact errMarker_no_at p hpat hm
    · exact absurd hm.symm (by decide)
    · exact hpo hm
  have hstep2 : includeStep fs base (pre ++ (errMarker p ++ '\n' :: post)) = none := by
    unfold includeStep
    rw [scanFindFirst_of_no_match includeMatch _
      (matcher_none_of_head_suffix includeMatch '@'
        (fun t r h => includeMatch_head t r h) _ hclean)]
  exact resolveIncludes_succ_done fs base fuel _ hstep2

/-- Witness for C4 at a concrete input: the missing file `missing.md` turns
into the inline error marker and the build completes. -/
theorem C4_missing_include_witness :
    (('@' ∉ "a\n".toList) ∧ "missing.md".toList ≠ [] ∧ '\n' ∉ "missing.md".toList
      ∧ '@' ∉ "missing.md".toList ∧ pyStrip "missing.md".toList = "missing.md".toList
      ∧ '@' ∉ "b".toList
      ∧ fsLookup [("other.md".toList, "X".toList)] (pyJoin [] "missing.md".toList) = none)
    ∧ resolveIncludes [("other.md".toList, "X".toList)] [] 3
        ("a\n".toList ++ ("@include ".toList ++ ("missing.md".toList ++ '\n' :: "b".toList)))
      = some ("a\n".toList ++ (errMarker "missing.md".toList ++ '\n' :: "b".toList)) := by
  refine ⟨⟨by decide, by decide, by decide, by decide, by decide, by decide, by decide⟩, ?_⟩
  exact C4_missing_include [("other.md".toList, "X".toList)] [] "a\n".toList
    "missing.md".toList "b".toList 1 (by decide) (by decide) (by decide) (by decide)
    (by decide) (by decide) (by decide)

end Ldoc

namespace Ldoc

/-! ### C10: the title is returned raw -/

/-- C10: the title returned by `parse_ldoc` is exactly the raw captured group
of the first `@title:` match in the include-resolved buffer: it is captured
before variable substitution and before every syntax transformation, and no
later stage (substitution, emphasis, HTML conversion, escaping) is ever
applied to it. -/
theorem C10_raw_title (fs : List (List Char × List Char)) (base : List Char)
    (varsIn : List (List Char × List Char)) (platform : Option (List Char))
    (fuel : Nat) (text : List Char) (p : List Char × List Char)
    (h : parse_ldoc fs base varsIn platform fuel text = some p) :
    ∃ r, resolveIncludes fs base fuel text = some r ∧ p.2 = (extractTitle r).2 := by
  unfold parse_ldoc at h
  cases hres : resolveIncludes fs base fuel text with
  | none =>
    rw [hres] at h
    exact absurd h (by simp)
  | some r =>
    rw [hres] at h
    refine ⟨r, rfl, ?_⟩
    simp only [Option.some.injEq] at h
    rw [← h]

/-- Witness for C10 at a concrete input: the returned title keeps the
variable reference `@X` and the emphasis marker verbatim, while the body has
`@X` substituted and everything else transformed. -/
theorem C10_raw_title_witness :
    parse_ldoc [] [] [] none 1 "@title: @X **b**\n@var X=5\n@X".toList
      = some ("<p></p><p>5</p>".toList, "@X **b**".toList)
    ∧ (∃ r, resolveIncludes [] [] 1 "@title: @X **b**\n@var X=5\n@X".toList = some r
        ∧ (("<p></p><p>5</p>".toList, "@X **b**".toList) : List Char × List Char).2
            = (extractTitle r).2)
    ∧ ('@' :: "X".toList) <:+: "@X **b**".toList
    ∧ ¬ (('@' :: "X".toList) <:+: "<p></p><p>5</p>".toList) := by
  refine ⟨by decide, C10_raw_title [] [] [] none 1 _ _ (by decide), by decide, by decide⟩

end Ldoc

namespace Ldoc

/-! ### C3: include resolution — general tools -/

/-- A prefix of an appended list lies in the left part or crosses into the
right part. -/
theorem prefix_append_cases (pat s b : List Char) (h : pat <+: s ++ b) :
    pat <+: s ∨ (s <+: pat ∧ pat.drop s.length <+: b) := by
  by_cases hl : pat.length ≤ s.length
  · left
    have h1 := List.prefix_iff_eq_take.mp h
    rw [List.take_append_eq_append_take, Nat.sub_eq_zero_of_le hl, List.take_zero,
      List.append_nil] at h1
    rw [h1]
    exact List.take_prefix _ _
  · right
    obtain ⟨k, hk⟩ := h
    have hsl : s.length ≤ pat.length := by omega
    have h1 := congrArg (List.take s.length) hk
    simp only [List.take_append_eq_append_take, Nat.sub_self, List.take_zero,
      List.append_nil, Nat.sub_eq_zero_of_le hsl, List.take_length] at h1
    have h2 := congrArg (List.drop s.length) hk
    simp only [List.drop_append_eq_append_drop, Nat.sub_self, List.drop_zero,
      List.drop_length, List.nil_append, Nat.sub_eq_zero_of_le hsl] at h2
    refine ⟨?_, ⟨k, h2⟩⟩
    rw [← h1]
    exact List.take_prefix _ _

end Ldoc

namespace Ldoc

/-- A suffix of an appended list is a suffix of the right part or carries a
nonempty suffix of the left part. -/
theorem suffix_append_cases (s a b : List Char) (h : s <:+ a ++ b) :
    s <:+ b ∨ ∃ s2, s2 ≠ [] ∧ s2 <:+ a ∧ s = s2 ++ b := by
  obtain ⟨u, hu⟩ := h
  by_cases hl : s.length ≤ b.length
  · left
    have hlen : a.length + b.length = u.length + s.length := by
      have := congrArg List.length hu
      simp only [List.length_append] at this
      omega
    have h1 := congrArg (List.drop u.length) hu
    rw [List.drop_left] at h1
    rw [List.drop_append_eq_append_drop] at h1
    have hua : a.length ≤ u.length := by omega
    rw [List.drop_eq_nil_of_le hua, List.nil_append] at h1
    rw [h1]
    exact List.drop_suffix _ _
  · right
    have hlen : a.length + b.length = u.length + s.length := by
      have := congrArg List.length hu
      simp only [List.length_append] at this
      omega
    have hua : u.length ≤ a.length := by omega
    refine ⟨a.drop u.length, ?_, List.drop_suffix _ _, ?_⟩
    · intro hnil
      have := congrArg List.length hnil
      simp only [List.length_drop, List.length_nil] at this
      omega
    · have h1 := congrArg (List.drop u.length) hu
      rw [List.drop_left, List.drop_append_eq_append_drop,
        Nat.sub_eq_zero_of_le hua, List.drop_zero] at h1
      exact h1

/-- A proper suffix of a list is a suffix of its tail. -/
theorem suffix_drop_one (s l : List Char) (h : s <:+ l) (hlt : s.length < l.length) :
    s <:+ l.drop 1 := by
  obtain ⟨u, hu⟩ := h
  have hune : u ≠ [] := by
    intro hnil
    subst hnil
    rw [List.nil_append] at hu
    rw [hu] at hlt
    exact lt_irrefl _ hlt
  cases u with
  | nil => exact absurd rfl hune
  | cons c cs =>
    rw [← hu]
    simp only [List.cons_append, List.drop_succ_cons, List.drop_zero]
    exact ⟨cs, rfl⟩

/-- Every line produced by `pyLines` is newline-free. -/
theorem pyLines_mem_no_nl (t l : List Char) (h : l ∈ pyLines t) : '\n' ∉ l := by
  induction t generalizing l with
  | nil =>
    simp [pyLines] at h
    simp [h]
  | cons c cs ih =>
    by_cases hc : c = '\n'
    · subst hc
      rw [pyLines_cons_nl] at h
      rcases List.mem_cons.mp h with h | h
      · simp [h]
      · exact ih l h
    · rw [pyLines_cons_of_ne c cs hc] at h
      rcases hpl : pyLines cs with _ | ⟨g, gs⟩
      · exact absurd hpl (pyLines_ne_nil cs)
      · rw [hpl] at h
        simp only [List.headI, List.tail] at h
        rcases List.mem_cons.mp h with h | h
        · subst h
          intro hmem
          rcases List.mem_cons.mp hmem with hm | hm
          · exact hc hm.symm
          · exact ih g (by rw [hpl]; exact List.mem_cons_self g gs) hm
        · exact ih l (by rw [hpl]; exact List.mem_cons_of_mem g h)

theorem fsLookup_mem (fs : List (List Char × List Char)) (k c : List Char)
    (h : fsLookup fs k = some c) : (k, c) ∈ fs := by
  induction fs with
  | nil => simp [fsLookup] at h
  | cons pr rest ih =>
    rw [fsLookup] at h
    by_cases hk : pr.1 = k
    · rw [if_pos hk] at h
      have : pr = (k, c) := by
        cases pr with
        | mk x y => simp at hk h; simp [hk, h]
      rw [← this]
      exact List.mem_cons_self pr rest
    · rw [if_neg hk] at h
      exact List.mem_cons_of_mem pr (ih h)

theorem sum_map_flatMap {A B : Type} (ls : List A) (f : A → List B) (wt : B → Nat) :
    (((ls.flatMap f).map wt).sum) = (ls.map (fun l => ((f l).map wt).sum)).sum := by
  induction ls with
  | nil => rfl
  | cons a rest ih =>
    rw [List.flatMap_cons, List.map_append, List.sum_append, ih, List.map_cons,
      List.sum_cons]

theorem sum_lt_sum_of_mem {A : Type} (ls : List A) (f g : A → Nat)
    (hle : ∀ x ∈ ls, f x ≤ g x) (x0 : A) (hx0 : x0 ∈ ls) (hlt : f x0 < g x0) :
    (ls.map f).sum < (ls.map g).sum := by
  induction ls with
  | nil => simp at hx0
  | cons a rest ih =>
    rw [List.map_cons, List.map_cons, List.sum_cons, List.sum_cons]
    rcases List.mem_cons.mp hx0 with h | h
    · subst h
      have hrest : (rest.map f).sum ≤ (rest.map g).sum :=
        List.sum_le_sum (fun x hx => hle x (List.mem_cons_of_mem _ hx))
      omega
    · have ha : f a ≤ g a := hle a (List.mem_cons_self a rest)
      have := ih (fun x hx => hle x (List.mem_cons_of_mem _ hx)) h
      omega

theorem includeMatch_isPrefixOf (t : List Char) (r : List Char × Nat)
    (h : includeMatch t = some r) : ("@include ".toList) <+: t := by
  by_cases hp : ("@include ".toList).isPrefixOf t = true
  · exact List.isPrefixOf_iff_prefix.mp hp
  · rw [includeMatch, if_neg hp] at h
    exact absurd h (by simp)

/-- `includeMatch` at a directive that runs to the end of the buffer. -/
theorem includeMatch_at_eof (p : List Char) (hp : p ≠ []) (hpnl : '\n' ∉ p) :
    includeMatch ("@include ".toList ++ p)
      = some ("@include ".toList ++ p, ("@include ".toList).length + p.length) := by
  have hpre : ("@include ".toList).isPrefixOf ("@include ".toList ++ p) = true :=
    List.isPrefixOf_iff_prefix.mpr (List.prefix_append _ _)
  rw [includeMatch, if_pos hpre]
  simp only [List.drop_left]
  rw [takeWhile_all (fun c => c != '\n') p
    (fun x hx => by
      simp only [bne_iff_ne, ne_eq, decide_eq_true_eq]
      exact fun hh => hpnl (hh ▸ hx))]
  rw [if_neg hp]

theorem incStep_none_iff (fs : List (List Char × List Char)) (base t : List Char) :
    includeStep fs base t = none ↔ scanFindFirst includeMatch t = none := by
  unfold includeStep
  cases scanFindFirst includeMatch t with
  | none => simp
  | some g =>
    simp only [iff_false]
    cases fsLookup fs (pyJoin base (pyStrip (g.drop ("@include ".toList).length))) <;> simp

end Ldoc

namespace Ldoc

/-! ### C3: line hygiene -/

/-- The text of an include-directive line for path `p`. -/
def dirLine (p : List Char) : List Char := "@include ".toList ++ p

/-- A well-behaved include path: nonempty, one line, already stripped, and
not itself containing an include token. -/
def pathOK (p : List Char) : Prop :=
  p ≠ [] ∧ '\n' ∉ p ∧ pyStrip p = p ∧ ¬ (("@include ".toList) <:+: p)

/-- A hygienic line: if it contains the include token at all, it is exactly a
directive line for a known path. -/
def lineOK (P : List (List Char)) (l : List Char) : Prop :=
  ("@include ".toList) <:+: l → ∃ p ∈ P, l = dirLine p

/-- A hygienic buffer: every line is hygienic. -/
def textOK (P : List (List Char)) (t : List Char) : Prop :=
  ∀ l ∈ pyLines t, lineOK P l

/-- A well-behaved path set: all paths well behaved and prefix-free (no known
path is a proper prefix of another). -/
def POK (P : List (List Char)) : Prop :=
  (∀ p ∈ P, pathOK p) ∧ ∀ p ∈ P, ∀ q ∈ P, p <+: q → p = q

/-- Hygienic file contents for every known path that resolves. -/
def fsOK (P : List (List Char)) (fs : List (List Char × List Char))
    (base : List Char) : Prop :=
  ∀ p ∈ P, (fsLookup fs (pyJoin base p)).elim True (textOK P)

theorem fsOK_spec (P : List (List Char)) (fs : List (List Char × List Char))
    (base : List Char) (h : fsOK P fs base) (p : List Char) (hp : p ∈ P)
    (c : List Char) (hc : fsLookup fs (pyJoin base p) = some c) : textOK P c := by
  have := h p hp
  rw [hc] at this
  exact this

/-- A nonempty suffix of the include token that is also a prefix of a string
beginning with the include token must be the whole token (the token has no
border: no proper nonempty suffix of it is one of its prefixes). -/
theorem inc_suffix_prefix (s2 X : List Char) (hs : s2 <:+ "@include ".toList)
    (hne : s2 ≠ []) (hpre : s2 <+: "@include ".toList ++ X) :
    s2 = "@include ".toList := by
  by_cases hlen : s2.length = ("@include ".toList).length
  · exact hs.eq_of_length hlen
  · exfalso
    have hlt : s2.length < ("@include ".toList).length :=
      lt_of_le_of_ne hs.length_le hlen
    have hsub : s2 <:+ ("@include ".toList).drop 1 := suffix_drop_one _ _ hs hlt
    cases s2 with
    | nil => exact hne rfl
    | cons c cs =>
      have hc : c = '@' := by
        obtain ⟨k, hk⟩ := hpre
        have hk2 : c :: (cs ++ k) = '@' :: ("include ".toList ++ X) := by
          rw [← List.cons_append, hk]
          rfl
        exact (List.cons.injEq _ _ _ _ ▸ hk2).1
      have hmem : c ∈ ("@include ".toList).drop 1 := hsub.mem (List.mem_cons_self c cs)
      rw [hc] at hmem
      exact absurd hmem (by decide)

/-- Under hygiene, one directive line can only occur inside another as the
whole line: the paths coincide. -/
theorem dirLine_infix_eq (P : List (List Char)) (hP : POK P) (p q : List Char)
    (hp : p ∈ P) (hq : q ∈ P) (h : dirLine p <:+: dirLine q) : p = q := by
  obtain ⟨s, hpre, hsuf⟩ := List.infix_iff_prefix_suffix.mp h
  rcases suffix_append_cases s ("@include ".toList) q hsuf with hcase | ⟨s2, hs2ne, hs2, rfl⟩
  · exfalso
    have hincs : ("@include ".toList) <+: s :=
      (List.prefix_append _ _).trans (show dirLine p <+: s from hpre)
    exact (hP.1 q hq).2.2.2 (hincs.isInfix.trans hcase.isInfix)
  · rcases prefix_append_cases (dirLine p) s2 q hpre with hc1 | ⟨hs2p, hdrop⟩
    · exfalso
      have hl1 := hc1.length_le
      have hl2 := hs2.length_le
      have hplen : 0 < p.length := List.length_pos.mpr (hP.1 p hp).1
      simp only [dirLine, List.length_append] at hl1
      omega
    · have hs2inc : s2 = "@include ".toList :=
        inc_suffix_prefix s2 p hs2 hs2ne (show s2 <+: "@include ".toList ++ p from hs2p)
      rw [hs2inc] at hdrop
      have hdp : (dirLine p).drop ("@include ".toList).length = p := by
        unfold dirLine
        exact List.drop_left _ _
      rw [hdp] at hdrop
      exact hP.2 p hp q hq hdrop

theorem errMarker_no_nl (p : List Char) (h : '\n' ∉ p) : '\n' ∉ errMarker p := by
  intro hmem
  unfold errMarker at hmem
  have l1 : '\n' ∉ "<div class=".toList := by decide
  have l2 : '\n' ∉ [sq] := by decide
  have l3 : '\n' ∉ "error".toList := by decide
  have l4 : '\n' ∉ ">Missing include: ".toList := by decide
  have l5 : '\n' ∉ "</div>".toList := by decide
  simp only [List.mem_append] at hmem
  tauto

/-- The include token occurs nowhere in a missing-include marker. -/
theorem errMarker_no_inc (p : List Char) (hpOK : pathOK p) :
    ¬ (("@include ".toList) <:+: errMarker p) := by
  intro h
  have hsplit : errMarker p
      = ("<div class=".toList ++ [sq] ++ "error".toList ++ [sq]
          ++ ">Missing include: ".toList) ++ (p ++ "</div>".toList) := by
    simp [errMarker, List.append_assoc]
  rw [hsplit] at h
  obtain ⟨s, hpre, hsuf⟩ := List.infix_iff_prefix_suffix.mp h
  rcases suffix_append_cases s _ _ hsuf with hcase | ⟨s2, hs2ne, hs2, rfl⟩
  · rcases suffix_append_cases s p ("</div>".toList) hcase with hcase2 | ⟨s3, hs3ne, hs3, rfl⟩
    · have h1 := hpre.length_le
      have h2 := hcase2.length_le
      have h3 : ("@include ".toList).length = 9 := by decide
      have h4 : ("</div>".toList).length = 6 := by decide
      omega
    · rcases prefix_append_cases ("@include ".toList) s3 ("</div>".toList) hpre
        with hc1 | ⟨hs3p, hdrop⟩
      · exact hpOK.2.2.2 (hc1.isInfix.trans hs3.isInfix)
      · by_cases hl9 : s3.length = ("@include ".toList).length
        · have : s3 = "@include ".toList := hs3p.eq_of_length hl9
          rw [this] at hs3
          exact hpOK.2.2.2 hs3.isInfix
        · have hlt : s3.length < ("@include ".toList).length :=
            lt_of_le_of_ne hs3p.length_le hl9
          rcases hd : ("@include ".toList).drop s3.length with _ | ⟨c, cs⟩
          · have := congrArg List.length hd
            simp only [List.length_drop, List.length_nil] at this
            omega
          · rw [hd] at hdrop
            have hc : c = '<' := by
              obtain ⟨k, hk⟩ := hdrop
              have hk2 : c :: (cs ++ k) = '<' :: "/div>".toList := by
                rw [← List.cons_append, hk]
                rfl
              exact (List.cons.injEq _ _ _ _ ▸ hk2).1
            have hmem : c ∈ ("@include ".toList) :=
              List.mem_of_mem_drop (n := s3.length)
                (by rw [hd]; exact List.mem_cons_self c cs)
            rw [hc] at hmem
            exact absurd hmem (by decide)
  · cases s2 with
    | nil => exact hs2ne rfl
    | cons c cs =>
      have hc : c = '@' := by
        obtain ⟨k, hk⟩ := hpre
        have hk2 : c :: (cs ++ (p ++ "</div>".toList))
            = '@' :: ("include ".toList ++ k) := by
          rw [List.cons_append] at hk
          rw [← hk]
          rfl
        exact (List.cons.injEq _ _ _ _ ▸ hk2).1
      have hmem : c ∈ ("<div class=".toList ++ [sq] ++ "error".toList ++ [sq]
          ++ ">Missing include: ".toList) := hs2.mem (List.mem_cons_self c cs)
      rw [hc] at hmem
      exact absurd hmem (by decide)

/-- A missing-include marker is a hygienic buffer. -/
theorem errMarker_textOK (P : List (List Char)) (p : List Char) (hpOK : pathOK p) :
    textOK P (errMarker p) := by
  intro l hl
  rw [pyLines_of_no_nl (errMarker p) (errMarker_no_nl p hpOK.2.1)] at hl
  rcases List.mem_cons.mp hl with h | h
  · subst h
    intro hinc
    exact absurd hinc (errMarker_no_inc p hpOK)
  · simp at h

end Ldoc

namespace Ldoc

/-! ### C3: the scanner on hygienic buffers -/

/-- No occurrence of the include pattern starts inside a hygienic
non-directive line, whatever follows at the next newline (or end of
buffer). -/
theorem includeMatch_none_of_line (l rest : List Char)
    (hni : ¬ (("@include ".toList) <:+: l))
    (hrest : rest = [] ∨ ∃ r2, rest = '\n' :: r2) :
    ∀ s, s <:+ l → s ≠ [] → includeMatch (s ++ rest) = none := by
  intro s hs hne
  rcases hr : includeMatch (s ++ rest) with _ | r
  · rfl
  exfalso
  have hpre : ("@include ".toList) <+: s ++ rest := includeMatch_isPrefixOf _ _ hr
  rcases prefix_append_cases _ s rest hpre with hc | ⟨hsp, hdrop⟩
  · exact hni (hc.isInfix.trans hs.isInfix)
  · by_cases hlen : s.length = ("@include ".toList).length
    · have hseq : s = "@include ".toList := hsp.eq_of_length hlen
      exact hni (hseq ▸ hs.isInfix)
    · have hlt : s.length < ("@include ".toList).length :=
        lt_of_le_of_ne hsp.length_le hlen
      rcases hd : ("@include ".toList).drop s.length with _ | ⟨c, cs⟩
      · have := congrArg List.length hd
        simp only [List.length_drop, List.length_nil] at this
        omega
      · rw [hd] at hdrop
        rcases hrest with rfl | ⟨r2, rfl⟩
        · have := hdrop.length_le
          simp at this
        · have hc : c = '\n' := by
            obtain ⟨k, hk⟩ := hdrop
            exact (List.cons.injEq _ _ _ _ ▸ hk).1
          have hmem : c ∈ ("@include ".toList) :=
            List.mem_of_mem_drop (n := s.length)
              (by rw [hd]; exact List.mem_cons_self c cs)
          rw [hc] at hmem
          exact absurd hmem (by decide)

/-- The line decomposition of a buffer that starts with a newline-free line. -/
theorem pyLines_line_cons (l rest : List Char) (hnl : '\n' ∉ l) :
    pyLines (l ++ '\n' :: rest) = l :: pyLines rest := by
  rw [pyLines_append_nl, pyLines_of_no_nl l hnl, List.singleton_append]

theorem textOK_line_cons (P : List (List Char)) (l rest : List Char) (hnl : '\n' ∉ l)
    (h : textOK P (l ++ '\n' :: rest)) : lineOK P l ∧ textOK P rest := by
  constructor
  · exact h l (by rw [pyLines_line_cons l rest hnl]; exact List.mem_cons_self _ _)
  · intro l2 hl2
    exact h l2 (by rw [pyLines_line_cons l rest hnl]; exact List.mem_cons_of_mem _ hl2)

/-- On a hygienic buffer, whatever the scanner finds is a known directive
line, present among the buffer's lines. -/
theorem findFirst_dir (P : List (List Char)) (hP : POK P) :
    ∀ t, textOK P t → ∀ g, scanFindFirst includeMatch t = some g →
      ∃ p ∈ P, g = dirLine p ∧ dirLine p ∈ pyLines t := by
  refine lines_induction _ ?_ ?_
  · intro t hnl ht g hg
    have hlOK : lineOK P t :=
      ht t (by rw [pyLines_of_no_nl t hnl]; exact List.mem_cons_self _ _)
    by_cases hdir : ("@include ".toList) <:+: t
    · obtain ⟨p, hp, hteq⟩ := hlOK hdir
      have hp1 := (hP.1 p hp).1
      have hp2 := (hP.1 p hp).2.1
      have hfind : scanFindFirst includeMatch t = some (dirLine p) := by
        rw [hteq]
        exact scanFindFirst_match includeMatch (dirLine p) (dirLine p) _
          (includeMatch_at_eof p hp1 hp2) (by simp [dirLine])
      rw [hg] at hfind
      refine ⟨p, hp, Option.some_inj.mp hfind, ?_⟩
      rw [hteq] at hnl ⊢
      rw [pyLines_of_no_nl (dirLine p) hnl]
      exact List.mem_cons_self _ _
    · have hnone : scanFindFirst includeMatch t = none :=
        scanFindFirst_of_no_match includeMatch t (fun s hs hne => by
          have := includeMatch_none_of_line t [] hdir (Or.inl rfl) s hs hne
          simpa using this)
      rw [hg] at hnone
      exact absurd hnone (by simp)
  · intro l rest hnl ih ht g hg
    obtain ⟨hlOK, htr⟩ := textOK_line_cons P l rest hnl ht
    by_cases hdir : ("@include ".toList) <:+: l
    · obtain ⟨p, hp, hleq⟩ := hlOK hdir
      have hp1 := (hP.1 p hp).1
      have hp2 := (hP.1 p hp).2.1
      have hfind : scanFindFirst includeMatch (l ++ '\n' :: rest) = some (dirLine p) := by
        rw [hleq]
        have hsh : dirLine p ++ '\n' :: rest
            = "@include ".toList ++ (p ++ '\n' :: rest) := by
          simp [dirLine, List.append_assoc]
        rw [hsh]
        exact scanFindFirst_match includeMatch _ (dirLine p) _
          (includeMatch_at p rest hp1 hp2) (by simp)
      rw [hg] at hfind
      refine ⟨p, hp, Option.some_inj.mp hfind, ?_⟩
      rw [pyLines_line_cons l rest hnl, hleq]
      exact List.mem_cons_self _ _
    · have hred : scanFindFirst includeMatch (l ++ '\n' :: rest)
          = scanFindFirst includeMatch rest := by
        rw [scanFindFirst_append_of_no_match includeMatch l ('\n' :: rest)
          (includeMatch_none_of_line l ('\n' :: rest) hdir (Or.inr ⟨rest, rfl⟩))]
        exact scanFindFirst_cons_none includeMatch '\n' rest
          (matcher_cons_none_of_head includeMatch '@' includeMatch_head '\n' rest
            (by decide))
      rw [hred] at hg
      obtain ⟨p, hp, hgeq, hmem⟩ := ih htr g hg
      refine ⟨p, hp, hgeq, ?_⟩
      rw [pyLines_line_cons l rest hnl]
      exact List.mem_cons_of_mem _ hmem

/-- Conversely, a known directive line among the lines of a hygienic buffer
is found by the scanner. -/
theorem findFirst_of_dir (P : List (List Char)) (hP : POK P) :
    ∀ t, textOK P t → (∃ p ∈ P, dirLine p ∈ pyLines t) →
      scanFindFirst includeMatch t ≠ none := by
  refine lines_induction _ ?_ ?_
  · rintro t hnl ht ⟨p, hp, hmem⟩ hnone
    rw [pyLines_of_no_nl t hnl] at hmem
    have hteq : t = dirLine p := (List.mem_singleton.mp hmem).symm
    have hp1 := (hP.1 p hp).1
    have hp2 := (hP.1 p hp).2.1
    have hsome : scanFindFirst includeMatch (dirLine p) = some (dirLine p) :=
      scanFindFirst_match includeMatch (dirLine p) (dirLine p) _
        (includeMatch_at_eof p hp1 hp2) (by simp [dirLine])
    rw [hteq] at hnone
    exact Option.some_ne_none _ (hsome.symm.trans hnone)
  · rintro l rest hnl ih ht ⟨p, hp, hmem⟩ hnone
    obtain ⟨hlOK, htr⟩ := textOK_line_cons P l rest hnl ht
    by_cases hdir : ("@include ".toList) <:+: l
    · obtain ⟨q, hq, hleq⟩ := hlOK hdir
      have hq1 := (hP.1 q hq).1
      have hq2 := (hP.1 q hq).2.1
      have hfind : scanFindFirst includeMatch (l ++ '\n' :: rest) = some (dirLine q) := by
        rw [hleq]
        have hsh : dirLine q ++ '\n' :: rest
            = "@include ".toList ++ (q ++ '\n' :: rest) := by
          simp [dirLine, List.append_assoc]
        rw [hsh]
        exact scanFindFirst_match includeMatch _ (dirLine q) _
          (includeMatch_at q rest hq1 hq2) (by simp)
      exact Option.some_ne_none _ (hfind.symm.trans hnone)
    · have hred : scanFindFirst includeMatch (l ++ '\n' :: rest)
          = scanFindFirst includeMatch rest := by
        rw [scanFindFirst_append_of_no_match includeMatch l ('\n' :: rest)
          (includeMatch_none_of_line l ('\n' :: rest) hdir (Or.inr ⟨rest, rfl⟩))]
        exact scanFindFirst_cons_none includeMatch '\n' rest
          (matcher_cons_none_of_head includeMatch '@' includeMatch_head '\n' rest
            (by decide))
      rw [hred] at hnone
      refine ih htr ⟨p, hp, ?_⟩ hnone
      rw [pyLines_line_cons l rest hnl] at hmem
      rcases List.mem_cons.mp hmem with h | h
      · exfalso
        apply hdir
        rw [← h]
        exact (List.prefix_append ("@include ".toList) p).isInfix
      · exact h

end Ldoc

namespace Ldoc

/-! ### C3: the replacement step as a per-line rewrite -/

/-- A directive line never begins at a newline character. -/
theorem dirLine_not_prefix_nl (p X : List Char) :
    ¬ (dirLine p ≠ [] ∧ (dirLine p).isPrefixOf ('\n' :: X)) := by
  rintro ⟨-, hpre⟩
  obtain ⟨k, hk⟩ := List.isPrefixOf_iff_prefix.mp hpre
  have hk2 : '@' :: (("include ".toList ++ p) ++ k) = '\n' :: X := by
    rw [← hk]
    rfl
  exact absurd (List.cons.injEq _ _ _ _ ▸ hk2).1 (by decide)

/-- Inside a hygienic line other than the directive line itself, the
directive line does not occur. -/
theorem dirLine_not_infix_line (P : List (List Char)) (hP : POK P) (p : List Char)
    (hp : p ∈ P) (l : List Char) (hlOK : lineOK P l) (hne : ¬ l = dirLine p)
    (h : dirLine p <:+: l) : False := by
  have hinc : ("@include ".toList) <:+: l :=
    (List.prefix_append ("@include ".toList) p).isInfix.trans h
  obtain ⟨q, hq, hleq⟩ := hlOK hinc
  rw [hleq] at h
  have hpq := dirLine_infix_eq P hP p q hp hq h
  exact hne (by rw [hleq, ← hpq])

/-- On a hygienic buffer, replacing every occurrence of a directive line's
text is exactly a whole-line substitution. -/
theorem replaceAll_dirLine_lines (P : List (List Char)) (hP : POK P) (p : List Char)
    (hp : p ∈ P) (rep : List Char) :
    ∀ t, textOK P t →
      replaceAll (dirLine p) rep t
        = joinNL ((pyLines t).map (fun l => if l = dirLine p then rep else l)) := by
  have hpat_ne : dirLine p ≠ [] := by simp [dirLine]
  refine lines_induction _ ?_ ?_
  · intro t hnl ht
    rw [pyLines_of_no_nl t hnl]
    simp only [List.map_cons, List.map_nil]
    by_cases hteq : t = dirLine p
    · subst hteq
      rw [if_pos rfl]
      have h1 := replaceAll_append_left (dirLine p) rep [] hpat_ne
      rw [List.append_nil, replaceAll_nil, List.append_nil] at h1
      rw [h1]
      rfl
    · rw [if_neg hteq]
      have hlOK : lineOK P t :=
        ht t (by rw [pyLines_of_no_nl t hnl]; exact List.mem_cons_self _ _)
      have hni : ¬ dirLine p <:+: t := fun hinf =>
        dirLine_not_infix_line P hP p hp t hlOK hteq hinf
      rw [ replaceAll_of_not_infix _ _ _ hni]
      rfl
  · intro l rest hnl ih ht
    obtain ⟨hlOK, htr⟩ := textOK_line_cons P l rest hnl ht
    rw [pyLines_line_cons l rest hnl, List.map_cons,
      joinNL_cons _ _ (by
        intro hmn
        exact pyLines_ne_nil rest (List.map_eq_nil_iff.mp hmn))]
    by_cases hleq : l = dirLine p
    · subst hleq
      rw [if_pos rfl, replaceAll_append_left _ _ _ hpat_ne,
        replaceAll_cons_neg _ _ '\n' rest (dirLine_not_prefix_nl p rest), ih htr]
    · rw [if_neg hleq]
      have hnocc : ∀ s, s <:+ l → s ≠ [] → ¬ (dirLine p) <+: (s ++ '\n' :: rest) := by
        intro s hs hne2 hpre
        rcases prefix_append_cases (dirLine p) s ('\n' :: rest) hpre with hc | ⟨hsp, hdrop⟩
        · exact dirLine_not_infix_line P hP p hp l hlOK hleq (hc.isInfix.trans hs.isInfix)
        · by_cases hlen : s.length = (dirLine p).length
          · have hseq : s = dirLine p := hsp.eq_of_length hlen
            exact dirLine_not_infix_line P hP p hp l hlOK hleq (hseq ▸ hs.isInfix)
          · have hlt : s.length < (dirLine p).length :=
              lt_of_le_of_ne hsp.length_le hlen
            rcases hd : (dirLine p).drop s.length with _ | ⟨c, cs⟩
            · have := congrArg List.length hd
              simp only [List.length_drop, List.length_nil] at this
              omega
            · rw [hd] at hdrop
              have hc : c = '\n' := by
                obtain ⟨k, hk⟩ := hdrop
                exact (List.cons.injEq _ _ _ _ ▸ hk).1
              have hmem : c ∈ dirLine p :=
                List.mem_of_mem_drop (n := s.length)
                  (by rw [hd]; exact List.mem_cons_self c cs)
              rw [hc] at hmem
              simp only [dirLine, List.mem_append] at hmem
              rcases hmem with h | h
              · exact absurd h (by decide)
              · exact (hP.1 p hp).2.1 h
      rw [replaceAll_append_of_no_occ _ _ _ _ hnocc,
        replaceAll_cons_neg _ _ '\n' rest (dirLine_not_prefix_nl p rest), ih htr]

end Ldoc

namespace Ldoc

/-! ### C3: line structure and hygiene across one replacement -/

theorem pyLines_replace_dirLine (P : List (List Char)) (hP : POK P) (p : List Char)
    (hp : p ∈ P) (rep t : List Char) (ht : textOK P t) :
    pyLines (replaceAll (dirLine p) rep t)
      = (pyLines t).flatMap (fun l => pyLines (if l = dirLine p then rep else l)) := by
  rw [replaceAll_dirLine_lines P hP p hp rep t ht,
    pyLines_joinNL_bind _ (by
      intro hmn
      exact pyLines_ne_nil t (List.map_eq_nil_iff.mp hmn)),
    List.flatMap_map]

theorem textOK_replace_dirLine (P : List (List Char)) (hP : POK P) (p : List Char)
    (hp : p ∈ P) (rep : List Char) (hrep : textOK P rep) (t : List Char)
    (ht : textOK P t) : textOK P (replaceAll (dirLine p) rep t) := by
  intro l2 hl2
  rw [pyLines_replace_dirLine P hP p hp rep t ht] at hl2
  obtain ⟨l, hl, hl2mem⟩ := List.mem_flatMap.mp hl2
  by_cases hleq : l = dirLine p
  · rw [if_pos hleq] at hl2mem
    exact hrep l2 hl2mem
  · rw [if_neg hleq, pyLines_of_no_nl l (pyLines_mem_no_nl t l hl)] at hl2mem
    rw [List.mem_singleton.mp hl2mem]
    exact ht l hl

/-- A directive line for a different path survives the replacement. -/
theorem dir_mem_replace_of_ne (P : List (List Char)) (hP : POK P) (p : List Char)
    (hp : p ∈ P) (rep t : List Char) (ht : textOK P t) (q : List Char)
    (hq : dirLine q ∈ pyLines t) (hne : q ≠ p) :
    dirLine q ∈ pyLines (replaceAll (dirLine p) rep t) := by
  rw [pyLines_replace_dirLine P hP p hp rep t ht]
  refine List.mem_flatMap.mpr ⟨dirLine q, hq, ?_⟩
  have hd : ¬ (dirLine q = dirLine p) := fun h => hne (List.append_cancel_left h)
  rw [if_neg hd, pyLines_of_no_nl _ (pyLines_mem_no_nl t _ hq)]
  exact List.mem_singleton.mpr rfl

/-- The replacement text's directive lines appear in the result whenever the
replaced directive line was present. -/
theorem dir_mem_replace_of_rep (P : List (List Char)) (hP : POK P) (p : List Char)
    (hp : p ∈ P) (rep t : List Char) (ht : textOK P t) (q : List Char)
    (hmem : dirLine p ∈ pyLines t) (hq : dirLine q ∈ pyLines rep) :
    dirLine q ∈ pyLines (replaceAll (dirLine p) rep t) := by
  rw [pyLines_replace_dirLine P hP p hp rep t ht]
  exact List.mem_flatMap.mpr ⟨dirLine p, hmem, by rw [if_pos rfl]; exact hq⟩

/-- Characterization of one loop iteration on a hygienic buffer: the found
directive is a known line of the buffer, and the step is a whole-buffer
replacement of that line by the resolved contents or the error marker. -/
theorem includeStep_char (P : List (List Char)) (hP : POK P)
    (fs : List (List Char × List Char)) (base : List Char)
    (t t2 : List Char) (ht : textOK P t) (hstep : includeStep fs base t = some t2) :
    ∃ p ∈ P, dirLine p ∈ pyLines t ∧
      ((∃ c, fsLookup fs (pyJoin base p) = some c ∧ t2 = replaceAll (dirLine p) c t) ∨
       (fsLookup fs (pyJoin base p) = none ∧
         t2 = replaceAll (dirLine p) (errMarker p) t)) := by
  unfold includeStep at hstep
  rcases hf : scanFindFirst includeMatch t with _ | g0
  · rw [hf] at hstep
    exact absurd hstep (by simp)
  · obtain ⟨p, hp, hgeq, hmem⟩ := findFirst_dir P hP t ht g0 hf
    subst hgeq
    simp only [hf] at hstep
    have hdrop : (dirLine p).drop ("@include ".toList).length = p :=
      List.drop_left "@include ".toList p
    rw [hdrop, (hP.1 p hp).2.2.1] at hstep
    refine ⟨p, hp, hmem, ?_⟩
    rcases hl : fsLookup fs (pyJoin base p) with _ | c
    · rw [hl] at hstep
      exact Or.inr ⟨rfl, (Option.some_inj.mp hstep).symm⟩
    · rw [hl] at hstep
      exact Or.inl ⟨c, rfl, (Option.some_inj.mp hstep).symm⟩

end Ldoc

namespace Ldoc

/-! ### C3: the termination potential -/

/-- Weight of a line under a rank certificate: `W ^ (rank of its path + 1)`
for a directive line, zero otherwise. -/
def lineWt (rk : List Char → Nat) (W : Nat) (l : List Char) : Nat :=
  if ("@include ".toList).isPrefixOf l then
    W ^ (rk (l.drop ("@include ".toList).length) + 1)
  else 0

/-- Termination potential of a buffer: total weight of its lines. -/
def phiW (rk : List Char → Nat) (W : Nat) (t : List Char) : Nat :=
  ((pyLines t).map (lineWt rk W)).sum

/-- Acyclicity certificate: along every resolving include edge the rank
strictly drops. -/
def rankOK (P : List (List Char)) (fs : List (List Char × List Char))
    (base : List Char) (rk : List Char → Nat) : Prop :=
  ∀ p ∈ P, (fsLookup fs (pyJoin base p)).elim True
    (fun c => ∀ q ∈ P, dirLine q ∈ pyLines c → rk q < rk p)

theorem rankOK_spec (P : List (List Char)) (fs : List (List Char × List Char))
    (base : List Char) (rk : List Char → Nat) (h : rankOK P fs base rk)
    (p : List Char) (hp : p ∈ P) (c : List Char)
    (hc : fsLookup fs (pyJoin base p) = some c) :
    ∀ q ∈ P, dirLine q ∈ pyLines c → rk q < rk p := by
  have hh := h p hp
  rw [hc] at hh
  exact hh

instance instDecPathOK (p : List Char) : Decidable (pathOK p) := by
  unfold pathOK
  infer_instance

instance instDecLineOK (P : List (List Char)) (l : List Char) :
    Decidable (lineOK P l) := by
  unfold lineOK
  infer_instance

instance instDecTextOK (P : List (List Char)) (t : List Char) :
    Decidable (textOK P t) := by
  unfold textOK
  infer_instance

instance instDecPOK (P : List (List Char)) : Decidable (POK P) := by
  unfold POK
  infer_instance

instance instDecOptionElim (o : Option (List Char)) (f : List Char → Prop)
    [hf : ∀ c, Decidable (f c)] : Decidable (o.elim True f) := by
  cases o with
  | none => exact isTrue trivial
  | some c => exact hf c

instance instDecFsOK (P : List (List Char)) (fs : List (List Char × List Char))
    (base : List Char) : Decidable (fsOK P fs base) := by
  unfold fsOK
  infer_instance

instance instDecRankOK (P : List (List Char)) (fs : List (List Char × List Char))
    (base : List Char) (rk : List Char → Nat) : Decidable (rankOK P fs base rk) := by
  unfold rankOK
  infer_instance

theorem lineWt_dirLine (rk : List Char → Nat) (W : Nat) (p : List Char) :
    lineWt rk W (dirLine p) = W ^ (rk p + 1) := by
  have hpre : ("@include ".toList).isPrefixOf (dirLine p) = true :=
    List.isPrefixOf_iff_prefix.mpr (List.prefix_append "@include ".toList p)
  rw [lineWt, if_pos hpre]
  have hdrop : (dirLine p).drop ("@include ".toList).length = p :=
    List.drop_left "@include ".toList p
  rw [hdrop]

theorem lineWt_eq_zero (rk : List Char → Nat) (W : Nat) (l : List Char)
    (hni : ¬ (("@include ".toList) <:+: l)) : lineWt rk W l = 0 := by
  rw [lineWt, if_neg]
  intro hpre
  exact hni (List.isPrefixOf_iff_prefix.mp hpre).isInfix

theorem sum_map_const {A : Type} (l : List A) (k : Nat) :
    (l.map (fun _ => k)).sum = l.length * k := by
  induction l with
  | nil => simp
  | cons a rest ih =>
    rw [List.map_cons, List.sum_cons, ih, List.length_cons, Nat.succ_mul,
      Nat.add_comm]

/-- The total weight of hygienic file contents one rank down is strictly
below one directive weight, provided `W` bounds the line count. -/
theorem phiW_content_lt (P : List (List Char)) (rk : List Char → Nat) (W : Nat)
    (hW : 0 < W) (p c : List Char) (hc : textOK P c)
    (hrk : ∀ q ∈ P, dirLine q ∈ pyLines c → rk q < rk p)
    (hlen : (pyLines c).length < W) :
    ((pyLines c).map (lineWt rk W)).sum < W ^ (rk p + 1) := by
  have hbound : ∀ l ∈ pyLines c, lineWt rk W l ≤ W ^ (rk p) := by
    intro l hl
    by_cases hni : ("@include ".toList) <:+: l
    · obtain ⟨q, hq, hleq⟩ := hc l hl hni
      rw [hleq, lineWt_dirLine]
      exact Nat.pow_le_pow_right hW (hrk q hq (hleq ▸ hl))
    · rw [lineWt_eq_zero rk W l hni]
      exact Nat.zero_le _
  calc ((pyLines c).map (lineWt rk W)).sum
      ≤ ((pyLines c).map (fun _ => W ^ (rk p))).sum := List.sum_le_sum hbound
    _ = (pyLines c).length * W ^ (rk p) := sum_map_const _ _
    _ < W * W ^ (rk p) := (mul_lt_mul_right (pow_pos hW _)).mpr hlen
    _ = W ^ (rk p + 1) := by rw [pow_succ, Nat.mul_comm]

theorem wt_errMarker_lt (rk : List Char → Nat) (W : Nat) (hW : 0 < W)
    (p : List Char) (hpOK : pathOK p) (k : Nat) :
    ((pyLines (errMarker p)).map (lineWt rk W)).sum < W ^ (k + 1) := by
  rw [pyLines_of_no_nl _ (errMarker_no_nl p hpOK.2.1)]
  simp only [List.map_cons, List.map_nil, List.sum_cons, List.sum_nil]
  rw [lineWt_eq_zero rk W _ (errMarker_no_inc p hpOK)]
  simpa using pow_pos hW (k + 1)

theorem phiW_pos_of_dir (rk : List Char → Nat) (W : Nat) (hW : 0 < W)
    (p t : List Char) (hmem : dirLine p ∈ pyLines t) : 0 < phiW rk W t := by
  have h1 : lineWt rk W (dirLine p) ≤ ((pyLines t).map (lineWt rk W)).sum :=
    List.single_le_sum (fun x _ => Nat.zero_le x) _
      (List.mem_map_of_mem (lineWt rk W) hmem)
  have h2 : 0 < lineWt rk W (dirLine p) := by
    rw [lineWt_dirLine]
    exact pow_pos hW _
  exact lt_of_lt_of_le h2 h1

end Ldoc

namespace Ldoc

/-! ### C3: decrease, termination, divergence -/

/-- One iteration of the include loop preserves hygiene and strictly lowers
the potential, under an acyclicity certificate. -/
theorem includeStep_decrease (P : List (List Char)) (hP : POK P)
    (fs : List (List Char × List Char)) (base : List Char)
    (rk : List Char → Nat) (W : Nat)
    (hfs : fsOK P fs base) (hrank : rankOK P fs base rk) (hW : 0 < W)
    (hWb : ∀ pr ∈ fs, (pyLines pr.2).length < W)
    (t t2 : List Char) (ht : textOK P t) (hstep : includeStep fs base t = some t2) :
    textOK P t2 ∧ phiW rk W t2 < phiW rk W t := by
  obtain ⟨p, hp, hmem, hcase⟩ := includeStep_char P hP fs base t t2 ht hstep
  have key : ∀ rep, textOK P rep →
      ((pyLines rep).map (lineWt rk W)).sum < W ^ (rk p + 1) →
      textOK P (replaceAll (dirLine p) rep t) ∧
        phiW rk W (replaceAll (dirLine p) rep t) < phiW rk W t := by
    intro rep hrep hwt
    refine ⟨textOK_replace_dirLine P hP p hp rep hrep t ht, ?_⟩
    rw [phiW, phiW, pyLines_replace_dirLine P hP p hp rep t ht, sum_map_flatMap]
    apply sum_lt_sum_of_mem (pyLines t) _ _ ?_ (dirLine p) hmem ?_
    · intro l hl
      by_cases hleq : l = dirLine p
      · rw [if_pos hleq, hleq, lineWt_dirLine]
        exact le_of_lt hwt
      · rw [if_neg hleq, pyLines_of_no_nl l (pyLines_mem_no_nl t l hl)]
        simp
    · rw [if_pos rfl, lineWt_dirLine]
      exact hwt
  rcases hcase with ⟨c, hl, rfl⟩ | ⟨hl, rfl⟩
  · have hc : textOK P c := fsOK_spec P fs base hfs p hp c hl
    exact key c hc (phiW_content_lt P rk W hW p c hc
      (rankOK_spec P fs base rk hrank p hp c hl)
      (hWb (pyJoin base p, c) (fsLookup_mem fs _ c hl)))
  · exact key (errMarker p) (errMarker_textOK P p (hP.1 p hp))
      (wt_errMarker_lt rk W hW p (hP.1 p hp) (rk p))

/-- Fuel one above the potential suffices: the loop reaches a buffer with no
directive left, and hygiene is preserved. -/
theorem resolveIncludes_total (P : List (List Char)) (hP : POK P)
    (fs : List (List Char × List Char)) (base : List Char)
    (rk : List Char → Nat) (W : Nat)
    (hfs : fsOK P fs base) (hrank : rankOK P fs base rk) (hW : 0 < W)
    (hWb : ∀ pr ∈ fs, (pyLines pr.2).length < W) :
    ∀ n t, textOK P t → phiW rk W t ≤ n →
      ∃ out, resolveIncludes fs base (n + 1) t = some out ∧
        scanFindFirst includeMatch out = none ∧ textOK P out := by
  intro n
  induction n with
  | zero =>
    intro t ht hphi
    rcases hstep : includeStep fs base t with _ | t2
    · exact ⟨t, resolveIncludes_succ_done fs base 0 t hstep,
        (incStep_none_iff fs base t).mp hstep, ht⟩
    · exfalso
      obtain ⟨p, hp, hmem, -⟩ := includeStep_char P hP fs base t t2 ht hstep
      have := phiW_pos_of_dir rk W hW p t hmem
      omega
  | succ n ih =>
    intro t ht hphi
    rcases hstep : includeStep fs base t with _ | t2
    · exact ⟨t, resolveIncludes_succ_done fs base (n + 1) t hstep,
        (incStep_none_iff fs base t).mp hstep, ht⟩
    · obtain ⟨ht2, hlt⟩ := includeStep_decrease P hP fs base rk W hfs hrank hW hWb
        t t2 ht hstep
      obtain ⟨out, hres, hout⟩ := ih t2 ht2 (by omega)
      refine ⟨out, ?_, hout⟩
      rw [resolveIncludes_succ_step fs base (n + 1) t t2 hstep]
      exact hres

/-- An unresolved cycle: if some cycle set of paths reinjects itself through
the file system and one of its directive lines is present, the loop never
stops, whatever the fuel. -/
theorem resolveIncludes_diverge (P S : List (List Char)) (hP : POK P)
    (fs : List (List Char × List Char)) (base : List Char)
    (hfs : fsOK P fs base) (hSP : ∀ p ∈ S, p ∈ P)
    (hcyc : ∀ p ∈ S, ∃ c, fsLookup fs (pyJoin base p) = some c ∧
        ∃ q ∈ S, dirLine q ∈ pyLines c) :
    ∀ n t, textOK P t → (∃ p ∈ S, dirLine p ∈ pyLines t) →
      resolveIncludes fs base n t = none := by
  intro n
  induction n with
  | zero => intro t ht hex; rfl
  | succ n ih =>
    intro t ht hex
    obtain ⟨p, hpS, hmem⟩ := hex
    have hfind : scanFindFirst includeMatch t ≠ none :=
      findFirst_of_dir P hP t ht ⟨p, hSP p hpS, hmem⟩
    rcases hstep : includeStep fs base t with _ | t2
    · exact absurd ((incStep_none_iff fs base t).mp hstep) hfind
    · rw [resolveIncludes_succ_step fs base n t t2 hstep]
      obtain ⟨r, hr, hmemr, hcase⟩ := includeStep_char P hP fs base t t2 ht hstep
      apply ih t2
      · rcases hcase with ⟨c, hl, rfl⟩ | ⟨hl, rfl⟩
        · exact textOK_replace_dirLine P hP r hr c
            (fsOK_spec P fs base hfs r hr c hl) t ht
        · exact textOK_replace_dirLine P hP r hr (errMarker r)
            (errMarker_textOK P r (hP.1 r hr)) t ht
      · by_cases hrS : r ∈ S
        · obtain ⟨c, hl, q, hqS, hqmem⟩ := hcyc r hrS
          rcases hcase with ⟨c2, hl2, rfl⟩ | ⟨hl2, rfl⟩
          · have hceq : c2 = c := Option.some_inj.mp (hl2.symm.trans hl)
            refine ⟨q, hqS, ?_⟩
            apply dir_mem_replace_of_rep P hP r hr c2 t ht q hmemr
            rw [hceq]
            exact hqmem
          · rw [hl] at hl2
            exact absurd hl2 (by simp)
        · refine ⟨p, hpS, ?_⟩
          rcases hcase with ⟨c, hl, rfl⟩ | ⟨hl, rfl⟩ <;>
            exact dir_mem_replace_of_ne P hP r hr _ t ht p hmem
              (fun h => hrS (h ▸ hpS))

end Ldoc

namespace Ldoc

/-- C3: include resolution replaces directives until none remain.  First
conjunct (acyclic side): on a hygienic buffer over a prefix-free path set
whose include graph admits a rank certificate (an acyclicity witness), some
fuel makes the `while re.search` loop of lines 15-25 stop, and the final
buffer contains no `@include` directive.  Second conjunct (cyclic side): if
some set of paths reinjects itself through the file system (each of its
members' files contains a directive line for another member) and one such
directive line is present in the buffer, the loop never stops, whatever the
fuel. -/
theorem C3_include_termination :
    (∀ (P : List (List Char)) (fs : List (List Char × List Char)) (base : List Char)
        (rk : List Char → Nat) (W : Nat) (t : List Char),
      POK P → fsOK P fs base → rankOK P fs base rk → 0 < W →
      (∀ pr ∈ fs, (pyLines pr.2).length < W) → textOK P t →
      ∃ n out, resolveIncludes fs base n t = some out ∧
        scanFindFirst includeMatch out = none ∧ textOK P out)
    ∧ (∀ (P S : List (List Char)) (fs : List (List Char × List Char))
        (base t : List Char),
      POK P → fsOK P fs base → (∀ p ∈ S, p ∈ P) →
      (∀ p ∈ S, ∃ c, fsLookup fs (pyJoin base p) = some c ∧
        ∃ q ∈ S, dirLine q ∈ pyLines c) →
      textOK P t → (∃ p ∈ S, dirLine p ∈ pyLines t) →
      ∀ n, resolveIncludes fs base n t = none) := by
  constructor
  · intro P fs base rk W t hP hfs hrank hW hWb ht
    obtain ⟨out, hres, hnone, hout⟩ :=
      resolveIncludes_total P hP fs base rk W hfs hrank hW hWb (phiW rk W t) t ht
        le_rfl
    exact ⟨phiW rk W t + 1, out, hres, hnone, hout⟩
  · intro P S fs base t hP hfs hSP hcyc ht hex n
    exact resolveIncludes_diverge P S hP fs base hfs hSP hcyc n t ht hex

/-- C3 witness: an acyclic one-file system resolves, a self-including file
never does. -/
theorem C3_include_termination_witness :
    (∃ n out, resolveIncludes [("a".toList, "hello".toList)] [] n
        "@include a\nx".toList = some out ∧
      scanFindFirst includeMatch out = none ∧ textOK ["a".toList] out)
    ∧ ∀ n, resolveIncludes [("self".toList, "x\n@include self".toList)] [] n
        "@include self".toList = none := by
  constructor
  · exact C3_include_termination.1 ["a".toList] [("a".toList, "hello".toList)] []
      (fun _ => 0) 3 "@include a\nx".toList (by decide) (by decide) (by decide)
      (by decide) (by decide) (by decide)
  · intro n
    exact C3_include_termination.2 ["self".toList] ["self".toList]
      [("self".toList, "x\n@include self".toList)] [] "@include self".toList
      (by decide) (by decide) (fun p hp => hp)
      (fun p hp => by
        rw [List.mem_singleton] at hp
        subst hp
        exact ⟨"x\n@include self".toList, rfl, "self".toList, by decide, by decide⟩)
      (by decide) ⟨"self".toList, by decide, by decide⟩ n

end Ldoc
